import Mathlib

set_option autoImplicit false

/-!
Verification of the CareerMatch workflow core (src/api/claude.js).

We shallowly embed the pieces of the program the claims are about:

* a model of the JavaScript `JSON.parse` / `JSON.stringify` pair on a
  JSON value type (`Json`, `jsonParse`, `strV`).  JSON numbers are
  modelled as exact decimals `m * 10 ^ e` in canonical form; JS strings
  are modelled as lists of unicode scalar characters;
* the four-strategy parser cascade `parseJSON` of the source
  (lines 107-116), including the case-insensitive fence stripping and
  the greedy `[...]` / `\x7b...\x7d` regex extraction;
* the text sanitizer of `analyze` (lines 192-197) and the length gate of
  `readFile` (line 176);
* a small-step session model of the React component: workflow step,
  resume text, profile, job listings, letter/tips caches, the single
  `genId` loading flag, and the set of dispatched, unresolved
  generation requests.  User clicks and response arrivals are events;
  the completion service's reply text is an event parameter.
-/

set_option maxRecDepth 4000

/- ── characters and whitespace ─────────────────────────────────── -/

/-- The brace characters, kept out of literals. -/
def lbrace : Char := Char.ofNat 123

def rbrace : Char := Char.ofNat 125

/-- JavaScript whitespace (the set matched by a bare regex `s`-class and
removed by `String.prototype.trim`). -/
def jsWsB (c : Char) : Bool :=
  let n := c.toNat
  n == 32 || n == 9 || n == 10 || n == 11 || n == 12 || n == 13 ||
  n == 0xA0 || n == 0x1680 || (0x2000 ≤ n && n ≤ 0x200A) ||
  n == 0x2028 || n == 0x2029 || n == 0x202F || n == 0x205F ||
  n == 0x3000 || n == 0xFEFF

/-- JSON grammar whitespace (the only characters `JSON.parse` skips
between tokens). -/
def jsonWsB (c : Char) : Bool :=
  let n := c.toNat
  n == 32 || n == 9 || n == 10 || n == 13

/-- Model of `String.prototype.trim`: drop JS whitespace at both ends. -/
def jsTrim (l : List Char) : List Char :=
  ((l.dropWhile jsWsB).reverse.dropWhile jsWsB).reverse

def skipWs (l : List Char) : List Char := l.dropWhile jsonWsB

def isDig (c : Char) : Bool := 48 ≤ c.toNat && c.toNat ≤ 57

def digVal (c : Char) : Nat := c.toNat - 48

def digChar (d : Nat) : Char := Char.ofNat (48 + d)

def hexDigVal (c : Char) : Option Nat :=
  let n := c.toNat
  if 48 ≤ n ∧ n ≤ 57 then some (n - 48)
  else if 97 ≤ n ∧ n ≤ 102 then some (n - 87)
  else if 65 ≤ n ∧ n ≤ 70 then some (n - 55)
  else none

def hexDigChar (d : Nat) : Char :=
  if d < 10 then Char.ofNat (48 + d) else Char.ofNat (87 + d)

/-- Decimal digit values of `n`, most significant first. -/
def digitsOf (n : Nat) : List Nat :=
  if n = 0 then [0] else (Nat.digits 10 n).reverse

/-- The number denoted by a digit-value list, most significant first. -/
def catDigits (ds : List Nat) : Nat := Nat.ofDigits 10 ds.reverse

def natToChars (n : Nat) : List Char := (digitsOf n).map digChar

/- ── JSON values ───────────────────────────────────────────────── -/

mutual
inductive Json where
  | null : Json
  | bool : Bool → Json
  | num : Int → Int → Json
  | str : List Char → Json
  | arr : JArr → Json
  | obj : JObj → Json
deriving DecidableEq
inductive JArr where
  | nil : JArr
  | cons : Json → JArr → JArr
deriving DecidableEq
inductive JObj where
  | nil : JObj
  | cons : List Char → Json → JObj → JObj
deriving DecidableEq
end

def JArr.toList : JArr → List Json
  | .nil => []
  | .cons v t => v :: JArr.toList t

def JArr.length (a : JArr) : Nat := a.toList.length

def JObj.keys : JObj → List (List Char)
  | .nil => []
  | .cons k _ t => k :: JObj.keys t

/-- Look a key up in an object, first binding wins (bindings are unique
for parsed objects). -/
def JObj.find : JObj → List Char → Option Json
  | .nil, _ => none
  | .cons k v t, k' => if k = k' then some v else JObj.find t k'

/-- JS object property assignment: overwrite in place if present, else
append.  This is the semantics of repeated keys in a JS object literal
and of a spread-plus-override. -/
def insertKey : JObj → List Char → Json → JObj
  | .nil, k, v => .cons k v .nil
  | .cons k' v' t, k, v =>
    if k' = k then .cons k' v t else .cons k' v' (insertKey t k v)

/-- JS truthiness of a JSON value (`0`, `""`, `false` and `null` are
falsy, every object and array is truthy). -/
def jsTruthy : Json → Bool
  | .null => false
  | .bool b => b
  | .num m _ => m != 0
  | .str s => s != []
  | .arr _ => true
  | .obj _ => true

/- ── canonical decimal numbers ─────────────────────────────────── -/

/-- Strip the factors of ten from a decimal mantissa into the exponent
(fuelled worker; one factor per fuel unit, |m| + 1 units always
suffice). -/
def canonF : Nat → Int → Int → Int × Int
  | 0, m, e => (m, e)
  | n + 1, m, e =>
    if m = 0 then (0, 0)
    else if (10 : Int) ∣ m then canonF n (m / 10) (e + 1)
    else (m, e)

/-- Strip the factors of ten from a decimal mantissa into the exponent,
so that value-equal decimals have one representation. -/
def canon (m : Int) (e : Int) : Int × Int := canonF (m.natAbs + 1) m e

theorem natAbs_div10_lt (m : Int) (hm : m ≠ 0) (h10 : (10 : Int) ∣ m) :
    (m / 10).natAbs < m.natAbs := by
  rcases h10 with ⟨k, hk⟩
  have hk10 : m / 10 = k := by omega
  have hkne : k ≠ 0 := by rintro rfl; simp at hk; exact hm hk
  rw [hk10]
  have : k.natAbs < (10 * k).natAbs := by
    rcases Int.natAbs_eq k with hh | hh <;> omega
  simpa [hk] using this

theorem canonF_fuel : ∀ (n n' : Nat) (m e : Int), m.natAbs < n →
    m.natAbs < n' → canonF n m e = canonF n' m e
  | 0, _, _, _ => fun h _ => absurd h (Nat.not_lt_zero _)
  | _ + 1, 0, _, _ => fun _ h => absurd h (Nat.not_lt_zero _)
  | n + 1, n' + 1, m, e => fun hn hn' => by
    rw [canonF, canonF]
    by_cases hm : m = 0
    · rw [if_pos hm, if_pos hm]
    · rw [if_neg hm, if_neg hm]
      by_cases h10 : (10 : Int) ∣ m
      · rw [if_pos h10, if_pos h10]
        have hlt := natAbs_div10_lt m hm h10
        exact canonF_fuel n n' (m / 10) (e + 1)
          (by omega) (by omega)
      · rw [if_neg h10, if_neg h10]

/-- The recursive unfolding of canon. -/
theorem canon_unfold (m e : Int) :
    canon m e =
      if m = 0 then (0, 0)
      else if (10 : Int) ∣ m then canon (m / 10) (e + 1)
      else (m, e) := by
  show canonF (m.natAbs + 1) m e = _
  rw [canonF]
  by_cases hm : m = 0
  · rw [if_pos hm, if_pos hm]
  · rw [if_neg hm, if_neg hm]
    by_cases h10 : (10 : Int) ∣ m
    · rw [if_pos h10, if_pos h10]
      exact canonF_fuel _ _ _ _ (natAbs_div10_lt m hm h10) (Nat.lt_succ_self _)
    · rw [if_neg h10, if_neg h10]

/-- Case analysis along the recursion of canon. -/
theorem canon_ind (P : Int → Int → Prop) (h1 : ∀ e, P 0 e)
    (h2 : ∀ m e, m ≠ 0 → (10 : Int) ∣ m → P (m / 10) (e + 1) → P m e)
    (h3 : ∀ m e, m ≠ 0 → ¬ (10 : Int) ∣ m → P m e) (m e : Int) : P m e := by
  by_cases hm : m = 0
  · exact hm ▸ h1 e
  · by_cases h10 : (10 : Int) ∣ m
    · have hlt := natAbs_div10_lt m hm h10
      exact h2 m e hm h10 (canon_ind P h1 h2 h3 (m / 10) (e + 1))
    · exact h3 m e hm h10
termination_by m.natAbs

/- ── JSON.stringify ────────────────────────────────────────────── -/

/-- Serialize a canonical decimal the way a reparse inverts exactly:
an integer when the exponent is non-negative, otherwise a fraction. -/
def strNum (m e : Int) : List Char :=
  let sign : List Char := if m < 0 then ['-'] else []
  let ds := natToChars m.natAbs
  if 0 ≤ e then sign ++ ds ++ List.replicate e.toNat '0'
  else
    let k := (-e).toNat
    if k < ds.length then
      sign ++ ds.take (ds.length - k) ++ '.' :: ds.drop (ds.length - k)
    else
      sign ++ '0' :: '.' :: List.replicate (k - ds.length) '0' ++ ds

/-- Escape one character the way `JSON.stringify` does. -/
def escChar (c : Char) : List Char :=
  if c = '"' then ['\\', '"']
  else if c = '\\' then ['\\', '\\']
  else if c = '\n' then ['\\', 'n']
  else if c = '\r' then ['\\', 'r']
  else if c = '\t' then ['\\', 't']
  else if c.toNat = 8 then ['\\', 'b']
  else if c.toNat = 12 then ['\\', 'f']
  else if c.toNat < 32 then
    ['\\', 'u', '0', '0', hexDigChar (c.toNat / 16), hexDigChar (c.toNat % 16)]
  else [c]

def escStr : List Char → List Char
  | [] => []
  | c :: r => escChar c ++ escStr r

mutual
def strV : Json → List Char
  | .null => 'n' :: ['u', 'l', 'l']
  | .bool true => 't' :: ['r', 'u', 'e']
  | .bool false => 'f' :: ['a', 'l', 's', 'e']
  | .num m e => strNum m e
  | .str s => '"' :: escStr s ++ ['"']
  | .arr a => '[' :: strItems a ++ [']']
  | .obj o => lbrace :: strFields o ++ [rbrace]
def strItems : JArr → List Char
  | .nil => []
  | .cons v .nil => strV v
  | .cons v (JArr.cons w t) => strV v ++ ',' :: strItems (JArr.cons w t)
def strFields : JObj → List Char
  | .nil => []
  | .cons k v .nil => '"' :: escStr k ++ '"' :: ':' :: strV v
  | .cons k v (JObj.cons k' v' t) =>
    '"' :: escStr k ++ '"' :: ':' :: strV v ++ ',' :: strFields (JObj.cons k' v' t)
end

/- ── JSON.parse ────────────────────────────────────────────────── -/

/-- Maximal digit prefix of a character list, as digit values. -/
def digitsPrefix : List Char → List Nat × List Char
  | [] => ([], [])
  | c :: r =>
    if isDig c then
      let p := digitsPrefix r
      (digVal c :: p.1, p.2)
    else ([], c :: r)

/-- Parse the digits of an exponent after the `e` marker and an
optional sign. -/
def parseExpTail (r : List Char) : Option (Int × List Char) :=
  let signed : Bool × List Char :=
    match r with
    | c :: r2 => if c = '-' then (true, r2) else if c = '+' then (false, r2) else (false, r)
    | [] => (false, r)
  let p := digitsPrefix signed.2
  if p.1 = [] then none
  else some (if signed.1 then -(catDigits p.1 : Int) else (catDigits p.1 : Int), p.2)

/-- Parse an optional exponent part `e`/`E`, sign, digits. -/
def parseExp : List Char → Option (Int × List Char)
  | [] => some (0, [])
  | c :: r =>
    if c = 'e' ∨ c = 'E' then parseExpTail r else some (0, c :: r)

/-- Integer part of a JSON number: a bare zero or a nonzero digit
followed by more digits. -/
def parseIntPart : List Char → Option (List Nat × List Char)
  | [] => none
  | c :: r =>
    if c = '0' then some ([0], r)
    else if isDig c then
      let p := digitsPrefix r
      some (digVal c :: p.1, p.2)
    else none

/-- Optional fraction part: a dot demands at least one digit. -/
def parseFracPart : List Char → Option (List Nat × List Char)
  | [] => some ([], [])
  | c :: r =>
    if c = '.' then
      let p := digitsPrefix r
      if p.1 = [] then none else some (p.1, p.2)
    else some ([], c :: r)

/-- The digit pipeline of a JSON number after the optional minus
sign: integer part, fraction, exponent, assembled as a canonical
decimal. -/
def parseNumCore (neg : Bool) (l : List Char) : Option ((Int × Int) × List Char) :=
  match parseIntPart l with
  | none => none
  | some (ints, rest) =>
    match parseFracPart rest with
    | none => none
    | some (fs, rest2) =>
      match parseExp rest2 with
      | none => none
      | some (ex, rest3) =>
        let mAbs : Int := (catDigits (ints ++ fs) : Int)
        let m : Int := if neg then -mAbs else mAbs
        some (canon m (ex - (fs.length : Int)), rest3)

def parseNum (l : List Char) : Option ((Int × Int) × List Char) :=
  match l with
  | c :: r => if c = '-' then parseNumCore true r else parseNumCore false (c :: r)
  | [] => parseNumCore false []

/-- Decode one escape character (everything but `u`). -/
def unescChar (c : Char) : Option Char :=
  if c = '"' then some '"'
  else if c = '\\' then some '\\'
  else if c = '/' then some '/'
  else if c = 'b' then some (Char.ofNat 8)
  else if c = 'f' then some (Char.ofNat 12)
  else if c = 'n' then some '\n'
  else if c = 'r' then some '\r'
  else if c = 't' then some '\t'
  else none

/-- Parse the body of a JSON string literal (the opening quote already
consumed): contents plus what follows the closing quote.  Control
characters must be escaped; `\uXXXX` escapes must denote a unicode
scalar. -/
def parseStr : List Char → Option (List Char × List Char)
  | [] => none
  | c :: r =>
    if c = '"' then some ([], r)
    else if c = '\\' then
      match r with
      | [] => none
      | e :: r2 =>
        if e = 'u' then
          match r2 with
          | a :: b :: c3 :: d :: r3 =>
            match hexDigVal a, hexDigVal b, hexDigVal c3, hexDigVal d with
            | some x1, some x2, some x3, some x4 =>
              let code := ((x1 * 16 + x2) * 16 + x3) * 16 + x4
              if code.isValidChar then
                (parseStr r3).map (fun p => (Char.ofNat code :: p.1, p.2))
              else none
            | _, _, _, _ => none
          | _ => none
        else
          match unescChar e with
          | some ch => (parseStr r2).map (fun p => (ch :: p.1, p.2))
          | none => none
    else if c.toNat < 32 then none
    else (parseStr r).map (fun p => (c :: p.1, p.2))

mutual
def parseValue : Nat → List Char → Option (Json × List Char)
  | 0, _ => none
  | Nat.succ fuel, l =>
    match l with
    | [] => none
    | c :: r =>
      if c = '"' then (parseStr r).map (fun p => (Json.str p.1, p.2))
      else if c = lbrace then
        match skipWs r with
        | c2 :: r2 => if c2 = rbrace then some (Json.obj JObj.nil, r2)
                      else parseFields fuel (c2 :: r2) JObj.nil
        | [] => none
      else if c = '[' then
        match skipWs r with
        | c2 :: r2 =>
          if c2 = ']' then some (Json.arr JArr.nil, r2)
          else (parseItems fuel (c2 :: r2)).map (fun p => (Json.arr p.1, p.2))
        | [] => none
      else if (c :: r).take 4 = ['n', 'u', 'l', 'l'] then some (Json.null, (c :: r).drop 4)
      else if (c :: r).take 4 = ['t', 'r', 'u', 'e'] then some (Json.bool true, (c :: r).drop 4)
      else if (c :: r).take 5 = ['f', 'a', 'l', 's', 'e'] then some (Json.bool false, (c :: r).drop 5)
      else (parseNum (c :: r)).map (fun p => (Json.num p.1.1 p.1.2, p.2))
def parseItems : Nat → List Char → Option (JArr × List Char)
  | 0, _ => none
  | Nat.succ fuel, l =>
    (parseValue fuel l).bind (fun p =>
      match skipWs p.2 with
      | c2 :: r2 =>
        if c2 = ',' then
          (parseItems fuel (skipWs r2)).map (fun q => (JArr.cons p.1 q.1, q.2))
        else if c2 = ']' then some (JArr.cons p.1 JArr.nil, r2)
        else none
      | [] => none)
def parseFields : Nat → List Char → JObj → Option (Json × List Char)
  | 0, _, _ => none
  | Nat.succ fuel, l, acc =>
    match l with
    | c :: r =>
      if c = '"' then
        (parseStr r).bind (fun pk =>
          match skipWs pk.2 with
          | c3 :: r3 =>
            if c3 = ':' then
              (parseValue fuel (skipWs r3)).bind (fun pv =>
                let acc2 := insertKey acc pk.1 pv.1
                match skipWs pv.2 with
                | c5 :: r5 =>
                  if c5 = ',' then parseFields fuel (skipWs r5) acc2
                  else if c5 = rbrace then some (Json.obj acc2, r5)
                  else none
                | [] => none)
            else none
          | [] => none)
      else none
    | [] => none
end

/-- Model of `JSON.parse` on a whole text: a single value with only
whitespace around it, otherwise failure (a thrown `SyntaxError` in
JS). -/
def jsonParse (l : List Char) : Option Json :=
  match parseValue (l.length + 1) (skipWs l) with
  | some (v, r) => if skipWs r = [] then some v else none
  | none => none

/- ── the four-strategy cascade of parseJSON (source lines 107-116) ─ -/

def btick : Char := Char.ofNat 96

def toLow (c : Char) : Char :=
  if 65 ≤ c.toNat ∧ c.toNat ≤ 90 then Char.ofNat (c.toNat + 32) else c

/-- Does the text start with a case-insensitive three-backtick json
fence marker? -/
def fenceJson (l : List Char) : Bool :=
  (l.take 7).map toLow == [btick, btick, btick, 'j', 's', 'o', 'n']

def fencePlain (l : List Char) : Bool :=
  l.take 3 == [btick, btick, btick]

/-- Model of the global case-insensitive replace of the fence regex by
the empty string: at each position the seven-character json fence is
preferred, then the bare fence, else the character is kept. -/
def stripFencesF : Nat → List Char → List Char
  | 0, l => l
  | _, [] => []
  | n + 1, c :: r =>
    if fenceJson (c :: r) then stripFencesF n (r.drop 6)
    else if fencePlain (c :: r) then stripFencesF n (r.drop 2)
    else c :: stripFencesF n r

def stripFences (l : List Char) : List Char := stripFencesF l.length l

/-- The greedy regex match from an opening to a closing bracket over
any characters: the slice from the first opener that precedes the last
closer, through that last closer. -/
def greedySlice (l : List Char) (op cl : Char) : Option (List Char) :=
  match (List.range l.length).reverse.find? (fun j => l.getD j ' ' == cl) with
  | none => none
  | some j =>
    match (List.range l.length).find? (fun i => decide (i < j) && (l.getD i ' ' == op)) with
    | none => none
    | some i => some ((l.drop i).take (j - i + 1))

def strat1 (t : List Char) : Option Json := jsonParse (jsTrim t)

def strat2 (t : List Char) : Option Json := jsonParse (jsTrim (stripFences t))

def strat3 (t : List Char) : Option Json := (greedySlice t '[' ']').bind jsonParse

def strat4 (t : List Char) : Option Json := (greedySlice t lbrace rbrace).bind jsonParse

/-- The parseJSON of the source: empty text is null, otherwise the four
strategies are tried in order inside try/catch and the first that does
not throw returns; if all throw the result is null. -/
def parseJSON (t : List Char) : Json :=
  if t = [] then .null
  else
    match strat1 t with
    | some v => v
    | none =>
      match strat2 t with
      | some v => v
      | none =>
        match strat3 t with
        | some v => v
        | none =>
          match strat4 t with
          | some v => v
          | none => .null

/-- A generic ordered cascade: first strategy that succeeds wins, and
the result is null when all fail. -/
def cascadeRun (fs : List (List Char → Option Json)) (t : List Char) : Json :=
  match fs.findSome? (fun f => f t) with
  | some v => v
  | none => .null

/-- Modelled from the spec wording of strategy 3: all bracketed slices
of the text, outer-first (start ascending, end descending). -/
def sliceCands (l : List Char) (op cl : Char) : List (List Char) :=
  ((List.range l.length).filter (fun i => l.getD i ' ' == op)).flatMap
    (fun i =>
      (((List.range l.length).reverse).filter
          (fun j => decide (i < j) && (l.getD j ' ' == cl))).map
        (fun j => (l.drop i).take (j - i + 1)))

/-- Modelled from the spec: extract and parse the first well-formed
outermost array literal substring. -/
def specStrat3 (t : List Char) : Option Json :=
  (sliceCands t '[' ']').findSome? jsonParse

/-- Modelled from the spec: extract and parse the first well-formed
outermost object literal substring. -/
def specStrat4 (t : List Char) : Option Json :=
  (sliceCands t lbrace rbrace).findSome? jsonParse

/-- Modelled from the spec: the parser as claim C3 describes it, with
strategies 3 and 4 scanning for the first well-formed bracketed
substring. -/
def parseJSONClaim (t : List Char) : Json :=
  cascadeRun [strat1, strat2, specStrat3, specStrat4] t

/- ── the sanitizer of analyze (source lines 192-197) ───────────── -/

def keepChar (c : Char) : Bool :=
  (32 ≤ c.toNat && c.toNat ≤ 126) || c == '\n' || c == '\r' || c == '\t'

def replaceChar (c : Char) : Char := if keepChar c then c else ' '

/-- Global replace of each maximal whitespace run of length at least
four by three spaces. -/
def collapseF : Nat → List Char → List Char
  | 0, l => l
  | _, [] => []
  | n + 1, c :: r =>
    if jsWsB c then
      (if 4 ≤ ((c :: r).takeWhile jsWsB).length then [' ', ' ', ' ']
       else (c :: r).takeWhile jsWsB) ++ collapseF n ((c :: r).dropWhile jsWsB)
    else c :: collapseF n r

def collapseWs (l : List Char) : List Char := collapseF l.length l

/-- The cleaned resume text: strip to the safe range, collapse long
whitespace runs, trim, truncate to 3000 characters. -/
def sanitize (t : List Char) : List Char :=
  (jsTrim (collapseWs (t.map replaceChar))).take 3000

/-- The acceptance check of readFile (line 176): the text read from the
file is kept only when non-empty with trimmed length at least 30. -/
def readFileResult (t : List Char) : Option (List Char) :=
  if t = [] ∨ (jsTrim t).length < 30 then none else some t

/- ── session state machine ─────────────────────────────────────── -/

inductive Kind where
  | letter : Kind
  | tips : Kind
deriving DecidableEq

/-- A dispatched, unresolved generation request: its kind, the listing
id it is keyed to, and the search epoch at dispatch time. -/
structure Pending where
  kind : Kind
  key : Nat
  epoch : Nat
deriving DecidableEq

instance : BEq Pending := ⟨fun a b => decide (a = b)⟩

instance : LawfulBEq Pending where
  rfl := by intro a; simp [BEq.beq]
  eq_of_beq := by intro a b h; simpa [BEq.beq] using h

def lookupA {α : Type} : List (Nat × α) → Nat → Option α
  | [], _ => none
  | (k, v) :: t, k' => if k = k' then some v else lookupA t k'

def updateA {α : Type} : List (Nat × α) → Nat → α → List (Nat × α)
  | [], k, v => [(k, v)]
  | (k', v') :: t, k, v =>
    if k' = k then (k', v) :: t else (k', v') :: updateA t k v

/-- The component state: workflow step, extracted resume text, the
profile, the listing set, both artifact caches, the single loading
flag genId, the dispatched unresolved requests, a completion-call
counter and the search epoch (how many times findJobs replaced the
listing set). -/
structure SState where
  step : Nat
  resumeText : Option (List Char)
  profile : Option Json
  jobs : List Json
  letters : List (Nat × List Char)
  tips : List (Nat × Json)
  genId : Option (Kind × Nat)
  inflight : List Pending
  serviceCalls : Nat
  epoch : Nat
deriving DecidableEq

def initState : SState :=
  { step := 0, resumeText := none, profile := none, jobs := [],
    letters := [], tips := [], genId := none, inflight := [],
    serviceCalls := 0, epoch := 0 }

/-- Value of a non-negative canonical JSON number. -/
def jnumToNat : Json → Option Nat
  | .num m e => if 0 ≤ m ∧ 0 ≤ e then some (m.toNat * 10 ^ e.toNat) else none
  | _ => none

def jobKey (j : Json) : Option Nat :=
  match j with
  | .obj o => (JObj.find o "id".toList).bind jnumToNat
  | _ => none

def enumStrFields : Nat → List Char → JObj
  | _, [] => .nil
  | i, c :: r => .cons (natToChars i) (Json.str [c]) (enumStrFields (i + 1) r)

def enumArrFields : Nat → JArr → JObj
  | _, .nil => .nil
  | i, .cons v t => .cons (natToChars i) v (enumArrFields (i + 1) t)

/-- The own fields a JS object spread copies out of a value. -/
def spreadFields : Json → JObj
  | .obj o => o
  | .arr a => enumArrFields 0 a
  | .str s => enumStrFields 0 s
  | _ => .nil

/-- findJobs reassigns ids sequentially: spread each parsed element and
override its id with the position plus one. -/
def reindex (l : List Json) : List Json :=
  l.mapIdx (fun i j =>
    Json.obj (insertKey (spreadFields j) "id".toList (Json.num ((i : Int) + 1) 0)))

/-- The fallback profile built in analyze when the cascade result is
falsy. -/
def defaultProfile (cleaned : List Char) : Json :=
  Json.obj
    (JObj.cons "name".toList (Json.str "Candidate".toList)
    (JObj.cons "skills".toList (Json.arr JArr.nil)
    (JObj.cons "experience_years".toList (Json.num 0 0)
    (JObj.cons "education".toList (Json.str "N/A".toList)
    (JObj.cons "current_role".toList (Json.str "Professional".toList)
    (JObj.cons "industries".toList (Json.arr JArr.nil)
    (JObj.cons "summary".toList (Json.str (cleaned.take 200)) JObj.nil)))))))

/-- Session events: user actions and arrivals of completion-service
responses.  Response text is an event parameter, since the service is
an external collaborator. -/
inductive Ev where
  | fileRead : List Char → Ev
  | continueBtn : Ev
  | backTo : Nat → Ev
  | analyzeOk : List Char → Ev
  | analyzeErr : Ev
  | findJobsOk : List Char → Ev
  | findJobsErr : Ev
  | clickLetter : Json → Ev
  | clickTips : Json → Ev
  | resolveLetter : Pending → List Char → Ev
  | resolveTips : Pending → List Char → Ev
  | rejectGen : Pending → Ev

/-- Start a generation: set the loading flag, record the dispatched
request, count the completion call. -/
def dispatchGen (s : SState) (kd : Kind) (k : Nat) : SState :=
  { s with genId := some (kd, k),
           inflight := ⟨kd, k, s.epoch⟩ :: s.inflight,
           serviceCalls := s.serviceCalls + 1 }

/-- One step of the session: transcribed from the component's
handlers and from which buttons each step renders. -/
def next (s : SState) (e : Ev) : SState :=
  match e with
  | .fileRead t =>
    if s.step = 0 then { s with resumeText := readFileResult t } else s
  | .continueBtn =>
    if s.step = 0 then
      match s.resumeText with
      | some _ => { s with step := 1 }
      | none => s
    else s
  | .backTo i => if i < s.step then { s with step := i } else s
  | .analyzeOk raw =>
    if s.step = 1 then
      let cleaned := sanitize (s.resumeText.getD [])
      let v := parseJSON raw
      { s with profile := some (if jsTruthy v then v else defaultProfile cleaned),
               step := 2, serviceCalls := s.serviceCalls + 1 }
    else s
  | .analyzeErr =>
    if s.step = 1 then { s with serviceCalls := s.serviceCalls + 1 } else s
  | .findJobsOk raw =>
    if s.step = 2 then
      match parseJSON raw with
      | .arr a =>
        if a.length > 0 then
          { s with jobs := reindex a.toList, step := 3,
                   epoch := s.epoch + 1, serviceCalls := s.serviceCalls + 1 }
        else { s with serviceCalls := s.serviceCalls + 1 }
      | _ => { s with serviceCalls := s.serviceCalls + 1 }
    else s
  | .findJobsErr =>
    if s.step = 2 then { s with serviceCalls := s.serviceCalls + 1 } else s
  | .clickLetter job =>
    if s.step = 3 ∧ job ∈ s.jobs then
      match jobKey job with
      | some k =>
        if s.genId = some (.letter, k) ∨ s.genId = some (.tips, k) then s
        else
          match lookupA s.letters k with
          | some v => if v = [] then dispatchGen s .letter k else s
          | none => dispatchGen s .letter k
      | none => s
    else s
  | .clickTips job =>
    if s.step = 3 ∧ job ∈ s.jobs then
      match jobKey job with
      | some k =>
        if s.genId = some (.letter, k) ∨ s.genId = some (.tips, k) then s
        else
          match lookupA s.tips k with
          | some v => if jsTruthy v then s else dispatchGen s .tips k
          | none => dispatchGen s .tips k
      | none => s
    else s
  | .resolveLetter p txt =>
    if p ∈ s.inflight ∧ p.kind = .letter then
      { s with inflight := s.inflight.erase p,
               letters := updateA s.letters p.key txt,
               genId := none }
    else s
  | .resolveTips p raw =>
    if p ∈ s.inflight ∧ p.kind = .tips then
      let parsed := parseJSON raw
      { s with inflight := s.inflight.erase p,
               tips := if jsTruthy parsed then updateA s.tips p.key parsed else s.tips,
               genId := none }
    else s
  | .rejectGen p =>
    if p ∈ s.inflight then
      { s with inflight := s.inflight.erase p, genId := none }
    else s

/-- Run a list of events from a state. -/
def runEvs (s : SState) : List Ev → SState
  | [] => s
  | e :: es => runEvs (next s e) es

/- ── well-formedness of JSON values ────────────────────────────── -/

/-- Canonical decimal: a zero mantissa forces a zero exponent, a
non-zero mantissa is not divisible by ten. -/
def wfNum (m e : Int) : Prop := (m = 0 → e = 0) ∧ (m ≠ 0 → ¬ (10 : Int) ∣ m)

mutual
def wfV : Json → Prop
  | .null => True
  | .bool _ => True
  | .num m e => wfNum m e
  | .str _ => True
  | .arr a => wfA a
  | .obj o => wfO o
def wfA : JArr → Prop
  | .nil => True
  | .cons v t => wfV v ∧ wfA t
def wfO : JObj → Prop
  | .nil => True
  | .cons k v t => wfV v ∧ ¬ k ∈ JObj.keys t ∧ wfO t
end

mutual
def cntV : Json → Nat
  | .arr a => 1 + cntA a
  | .obj o => 1 + cntO o
  | _ => 1
def cntA : JArr → Nat
  | .nil => 0
  | .cons v t => 1 + cntV v + cntA t
def cntO : JObj → Nat
  | .nil => 0
  | .cons _ v t => 1 + cntV v + cntO t
end

/-- Concatenation of objects, used to describe the parser's field
accumulator. -/
def jcat : JObj → JObj → JObj
  | .nil, o => o
  | .cons k v t, o => .cons k v (jcat t o)

theorem jcat_nil (o : JObj) : jcat o .nil = o := by
  match o with
  | .nil => rfl
  | .cons k v t => simp [jcat, jcat_nil t]

theorem jcat_assoc (a b c : JObj) : jcat (jcat a b) c = jcat a (jcat b c) := by
  match a with
  | .nil => rfl
  | .cons k v t => simp [jcat, jcat_assoc t b c]

theorem insertKey_notMem (acc : JObj) (k : List Char) (v : Json)
    (h : ¬ k ∈ JObj.keys acc) :
    insertKey acc k v = jcat acc (JObj.cons k v JObj.nil) := by
  match acc with
  | .nil => rfl
  | .cons k' v' t =>
    simp only [JObj.keys, List.mem_cons] at h
    push_neg at h
    simp only [insertKey, jcat]
    rw [if_neg (fun hh => h.1 hh.symm), insertKey_notMem t k v h.2]

/- ── digit characters ──────────────────────────────────────────── -/

theorem toNat_ofNat_valid {n : Nat} (h : n.isValidChar) :
    (Char.ofNat n).toNat = n := by
  simp [Char.ofNat, h, Char.ofNatAux, Char.toNat, UInt32.toNat, BitVec.toNat_ofNatLt]

theorem digChar_toNat {d : Nat} (h : d < 10) : (digChar d).toNat = 48 + d := by
  have hv : (48 + d).isValidChar := Or.inl (by omega)
  unfold digChar
  exact toNat_ofNat_valid hv

theorem isDig_digChar {d : Nat} (h : d < 10) : isDig (digChar d) = true := by
  unfold isDig
  rw [digChar_toNat h]
  simp
  omega

theorem digVal_digChar {d : Nat} (h : d < 10) : digVal (digChar d) = d := by
  unfold digVal
  rw [digChar_toNat h]
  omega

theorem digChar_ne_zero_char {d : Nat} (h : d < 10) (hd : d ≠ 0) :
    digChar d ≠ '0' := by
  intro he
  have h2 := digChar_toNat h
  rw [he] at h2
  have : ('0').toNat = 48 := by decide
  omega

theorem jsWsB_digChar {d : Nat} (h : d < 10) : jsWsB (digChar d) = false := by
  unfold jsWsB
  rw [digChar_toNat h]
  simp
  omega

theorem jsonWs_of_jsWs {c : Char} (h : jsWsB c = false) : jsonWsB c = false := by
  simp [jsWsB] at h
  simp [jsonWsB]
  omega

/- ── digit lists ───────────────────────────────────────────────── -/

theorem digitsOf_lt (n : Nat) : ∀ d ∈ digitsOf n, d < 10 := by
  intro d hd
  unfold digitsOf at hd
  split at hd
  · simp at hd; omega
  · rw [List.mem_reverse] at hd
    exact Nat.digits_lt_base (by norm_num) hd

theorem digitsOf_ne_nil (n : Nat) : digitsOf n ≠ [] := by
  unfold digitsOf
  split
  · simp
  · rw [ne_eq, List.reverse_eq_nil_iff]
    rename_i h
    exact Nat.digits_ne_nil_iff_ne_zero.mpr h

theorem catDigits_digitsOf (n : Nat) : catDigits (digitsOf n) = n := by
  unfold catDigits digitsOf
  split
  · rename_i h
    subst h
    rfl
  · rw [List.reverse_reverse]
    exact Nat.ofDigits_digits 10 n

theorem digitsOf_head_ne_zero (n : Nat) (hn : n ≠ 0) :
    ∀ d, (digitsOf n).head? = some d → d ≠ 0 := by
  intro d hd
  unfold digitsOf at hd
  rw [if_neg hn] at hd
  rw [List.head?_reverse] at hd
  have hnil : Nat.digits 10 n ≠ [] := Nat.digits_ne_nil_iff_ne_zero.mpr hn
  rw [List.getLast?_eq_getLast _ hnil, Option.some_inj] at hd
  intro he
  exact Nat.getLast_digit_ne_zero 10 hn (hd.trans he)

theorem catDigits_append (ds fs : List Nat) :
    catDigits (ds ++ fs) = catDigits ds * 10 ^ fs.length + catDigits fs := by
  unfold catDigits
  rw [List.reverse_append, Nat.ofDigits_append]
  simp [List.length_reverse]
  ring

theorem catDigits_replicate_zero (j : Nat) :
    catDigits (List.replicate j 0) = 0 := by
  induction j with
  | zero => rfl
  | succ i ih =>
    have : List.replicate (i + 1) 0 = List.replicate i 0 ++ [0] := by
      rw [List.replicate_succ']
    rw [this, catDigits_append, ih]
    simp [catDigits, Nat.ofDigits]

theorem catDigits_append_zeros (ds : List Nat) (j : Nat) :
    catDigits (ds ++ List.replicate j 0) = catDigits ds * 10 ^ j := by
  rw [catDigits_append, catDigits_replicate_zero]
  simp

theorem catDigits_zeros_append (j : Nat) (ds : List Nat) :
    catDigits (List.replicate j 0 ++ ds) = catDigits ds := by
  rw [catDigits_append, catDigits_replicate_zero]
  simp

/- ── canon ─────────────────────────────────────────────────────── -/

theorem canon_zero (e : Int) : canon 0 e = (0, 0) := by
  rw [canon_unfold]
  simp

theorem canon_of_not_dvd (m e : Int) (hm : m ≠ 0) (h10 : ¬ (10 : Int) ∣ m) :
    canon m e = (m, e) := by
  rw [canon_unfold]
  simp [hm, h10]

theorem canon_mul_ten (m e : Int) : canon (m * 10) e = canon m (e + 1) := by
  by_cases hm : m = 0
  · subst hm; simp [canon_zero]
  · have hne : m * 10 ≠ 0 := by exact mul_ne_zero hm (by norm_num)
    have hdvd : (10 : Int) ∣ m * 10 := ⟨m, by ring⟩
    conv_lhs => rw [canon_unfold]
    rw [if_neg hne, if_pos hdvd]
    congr 1
    omega

theorem canon_mul_pow (m e : Int) (j : Nat) :
    canon (m * 10 ^ j) e = canon m (e + j) := by
  induction j generalizing e with
  | zero => simp
  | succ i ih =>
    have : m * 10 ^ (i + 1) = m * 10 ^ i * 10 := by ring
    rw [this, canon_mul_ten, ih]
    congr 1
    push_cast
    ring

theorem canon_wf (m e : Int) : wfNum (canon m e).1 (canon m e).2 := by
  induction m, e using canon_ind with
  | h1 e => rw [canon_unfold]; simp [wfNum]
  | h2 m e h h10 ih => rw [canon_unfold]; simpa [h, h10] using ih
  | h3 m e h h10 => rw [canon_unfold]; simp [h, h10, wfNum]

/- ── number parsing round trip ─────────────────────────────────── -/

/-- The following characters cannot start a digit run. -/
def notDigStart (l : List Char) : Prop :=
  ∀ c, l.head? = some c → isDig c = false

/-- Characters that may legally follow a serialized number: nothing,
or a separator that cannot extend the numeric token. -/
def numBdy (l : List Char) : Prop :=
  ∀ c, l.head? = some c →
    isDig c = false ∧ c ≠ '.' ∧ c ≠ 'e' ∧ c ≠ 'E'

theorem numBdy_notDigStart {l : List Char} (h : numBdy l) : notDigStart l :=
  fun c hc => (h c hc).1

theorem digitsPrefix_map (ds : List Nat) (rest : List Char)
    (h : ∀ d ∈ ds, d < 10) (hr : notDigStart rest) :
    digitsPrefix (ds.map digChar ++ rest) = (ds, rest) := by
  induction ds with
  | nil =>
    simp only [List.map_nil, List.nil_append]
    cases rest with
    | nil => rfl
    | cons c r =>
      have := hr c rfl
      simp [digitsPrefix, this]
  | cons d t ih =>
    have hd : d < 10 := h d (List.mem_cons_self d t)
    have ht : ∀ x ∈ t, x < 10 := fun x hx => h x (List.mem_cons_of_mem d hx)
    simp only [List.map_cons, List.cons_append]
    simp [digitsPrefix, isDig_digChar hd, ih ht, digVal_digChar hd]

theorem parseIntPart_digits (ds : List Nat) (rest : List Char)
    (h10 : ∀ d ∈ ds, d < 10) (hr : notDigStart rest)
    (hds : ds = [0] ∨ (∃ d t, ds = d :: t ∧ d ≠ 0)) :
    parseIntPart (ds.map digChar ++ rest) = some (ds, rest) := by
  rcases hds with rfl | ⟨d, t, rfl, hd⟩
  · have h0 : digChar 0 = '0' := by decide
    simp [parseIntPart, h0, digitsPrefix_map, hr]
  · have hdlt : d < 10 := h10 d (List.mem_cons_self d t)
    have ht : ∀ x ∈ t, x < 10 := fun x hx => h10 x (List.mem_cons_of_mem d hx)
    simp only [List.map_cons, List.cons_append]
    simp [parseIntPart, digChar_ne_zero_char hdlt hd, isDig_digChar hdlt,
      digitsPrefix_map t rest ht hr, digVal_digChar hdlt]

theorem parseFracPart_no (l : List Char)
    (h : ∀ c, l.head? = some c → c ≠ '.') :
    parseFracPart l = some ([], l) := by
  cases l with
  | nil => rfl
  | cons c r => simp [parseFracPart, h c rfl]

theorem parseFracPart_dot (fs : List Nat) (rest : List Char)
    (hfs : fs ≠ []) (h10 : ∀ d ∈ fs, d < 10) (hr : notDigStart rest) :
    parseFracPart ('.' :: (fs.map digChar ++ rest)) = some (fs, rest) := by
  simp [parseFracPart, digitsPrefix_map fs rest h10 hr, hfs]

theorem parseExp_no (l : List Char)
    (h : ∀ c, l.head? = some c → c ≠ 'e' ∧ c ≠ 'E') :
    parseExp l = some (0, l) := by
  cases l with
  | nil => rfl
  | cons c r =>
    have := h c rfl
    simp [parseExp, this.1, this.2]

theorem canon_neg (m e : Int) : canon (-m) e = (-(canon m e).1, (canon m e).2) := by
  induction m, e using canon_ind with
  | h1 e => simp [canon_zero]
  | h2 m e h h10 ih =>
    have hnm : -m ≠ 0 := neg_ne_zero.mpr h
    have h10n : (10 : Int) ∣ -m := (dvd_neg).mpr h10
    have hdiv : -m / 10 = -(m / 10) := by
      rcases h10 with ⟨k, hk⟩
      omega
    conv_lhs => rw [canon_unfold]
    rw [if_neg hnm, if_pos h10n, hdiv, ih]
    conv_rhs => rw [canon_unfold]
    rw [if_neg h, if_pos h10]
  | h3 m e h h10 =>
    have hnm : -m ≠ 0 := neg_ne_zero.mpr h
    have h10n : ¬ (10 : Int) ∣ -m := fun hd => h10 ((dvd_neg).mp hd)
    rw [canon_of_not_dvd _ _ hnm h10n, canon_of_not_dvd _ _ h h10]

theorem canon_end (M e : Int) (h : wfNum M e) : canon M e = (M, e) := by
  by_cases hM : M = 0
  · subst hM
    rw [canon_zero, h.1 rfl]
  · exact canon_of_not_dvd M e hM (h.2 hM)

theorem wfNum_signed (neg : Bool) (n : Nat) (e : Int) (h : wfNum (n : Int) e) :
    wfNum (if neg then -(n : Int) else (n : Int)) e := by
  cases neg
  · simpa using h
  · simp only [if_pos rfl]
    constructor
    · intro h0
      exact h.1 (by omega)
    · intro h0 hd
      exact h.2 (by omega) ((dvd_neg).mp hd)


theorem parseNumCore_eq (neg : Bool) (l : List Char) (ints fs : List Nat)
    (r1 r2 r3 : List Char) (ex : Int)
    (h1 : parseIntPart l = some (ints, r1))
    (h2 : parseFracPart r1 = some (fs, r2))
    (h3 : parseExp r2 = some (ex, r3)) :
    parseNumCore neg l =
      some (canon (if neg then -(catDigits (ints ++ fs) : Int)
                   else (catDigits (ints ++ fs) : Int))
              (ex - (fs.length : Int)), r3) := by
  unfold parseNumCore
  rw [h1]
  dsimp only
  rw [h2]
  dsimp only
  rw [h3]

theorem parseNumCore_strNum (neg : Bool) (n : Nat) (e : Int)
    (hwf : wfNum (n : Int) e) (rest : List Char) (hr : numBdy rest) :
    parseNumCore neg (strNum (n : Int) e ++ rest) =
      some (((if neg then -(n : Int) else (n : Int)), e), rest) := by
  have hds10 : ∀ d ∈ digitsOf n, d < 10 := digitsOf_lt n
  have habs : ((n : Int)).natAbs = n := Int.natAbs_ofNat n
  have hsign : ¬ ((n : Int) < 0) := by omega
  have hfr : ∀ c, rest.head? = some c → c ≠ '.' := fun c hc => (hr c hc).2.1
  have hex : ∀ c, rest.head? = some c → c ≠ 'e' ∧ c ≠ 'E' :=
    fun c hc => ⟨(hr c hc).2.2.1, (hr c hc).2.2.2⟩
  have hnds : notDigStart rest := numBdy_notDigStart hr
  have hMwf := wfNum_signed neg n e hwf
  by_cases he : 0 ≤ e
  · -- integer form: digits of n followed by e zeros
    have hA : strNum (n : Int) e = (digitsOf n ++ List.replicate e.toNat 0).map digChar := by
      unfold strNum natToChars
      rw [if_neg hsign, if_pos he, habs]
      have h0 : digChar 0 = '0' := by decide
      simp [List.map_append, List.map_replicate, h0]
    have h10' : ∀ d ∈ digitsOf n ++ List.replicate e.toNat 0, d < 10 := by
      intro d hd
      rcases List.mem_append.mp hd with hd | hd
      · exact hds10 d hd
      · have := List.eq_of_mem_replicate hd
        omega
    have hds' : digitsOf n ++ List.replicate e.toNat 0 = [0] ∨
        ∃ d t, digitsOf n ++ List.replicate e.toNat 0 = d :: t ∧ d ≠ 0 := by
      by_cases hn : n = 0
      · left
        have he0 : e = 0 := hwf.1 (by exact_mod_cast hn)
        subst hn he0
        rfl
      · right
        obtain ⟨d, t, hdt⟩ := List.exists_cons_of_ne_nil (digitsOf_ne_nil n)
        refine ⟨d, t ++ List.replicate e.toNat 0, ?_, ?_⟩
        · rw [hdt]; simp
        · exact digitsOf_head_ne_zero n hn d (by rw [hdt]; rfl)
    rw [hA]
    rw [parseNumCore_eq neg _ _ _ _ _ _ 0
      (parseIntPart_digits _ rest h10' hnds hds')
      (parseFracPart_no rest hfr)
      (parseExp_no rest hex)]
    simp only [List.append_nil, List.length_nil, Nat.cast_zero, sub_zero]
    have hval : (catDigits (digitsOf n ++ List.replicate e.toNat 0) : Int)
        = (n : Int) * 10 ^ e.toNat := by
      rw [catDigits_append_zeros, catDigits_digitsOf]
      push_cast
      ring
    rw [hval]
    have hsgn : (if neg then -((n : Int) * 10 ^ e.toNat) else (n : Int) * 10 ^ e.toNat)
        = (if neg then -(n : Int) else (n : Int)) * 10 ^ e.toNat := by
      cases neg <;> simp [neg_mul]
    rw [hsgn, canon_mul_pow]
    rw [show ((0 : Int) + (e.toNat : Int)) = e from by omega]
    rw [canon_end _ e hMwf]
  · -- fractional form
    push_neg at he
    have hn : n ≠ 0 := by
      intro hn0
      have := hwf.1 (by exact_mod_cast hn0)
      omega
    obtain ⟨d, t, hdt⟩ := List.exists_cons_of_ne_nil (digitsOf_ne_nil n)
    have hdne : d ≠ 0 := digitsOf_head_ne_zero n hn d (by rw [hdt]; rfl)
    have hk1 : 1 ≤ (-e).toNat := by omega
    have hlen : (digitsOf n).length = t.length + 1 := by rw [hdt]; rfl
    by_cases hkl : (-e).toNat < (digitsOf n).length
    · -- point inside the digits
      have hj1 : 1 ≤ (digitsOf n).length - (-e).toNat := by omega
      have hB : strNum (n : Int) e ++ rest =
          ((digitsOf n).take ((digitsOf n).length - (-e).toNat)).map digChar ++
            ('.' :: (((digitsOf n).drop ((digitsOf n).length - (-e).toNat)).map digChar
              ++ rest)) := by
        unfold strNum natToChars
        rw [if_neg hsign, if_neg (by omega), habs]
        rw [List.length_map, if_pos hkl]
        simp [List.map_take, List.map_drop]
      obtain ⟨j, hj⟩ : ∃ j, (digitsOf n).length - (-e).toNat = j + 1 :=
        ⟨(digitsOf n).length - (-e).toNat - 1, by omega⟩
      have htake : (digitsOf n).take ((digitsOf n).length - (-e).toNat)
          = d :: t.take j := by
        rw [hj, hdt]
        simp [List.take_succ_cons]
      have h10t : ∀ x ∈ (digitsOf n).take ((digitsOf n).length - (-e).toNat), x < 10 :=
        fun x hx => hds10 x (List.take_subset _ _ hx)
      have h10d : ∀ x ∈ (digitsOf n).drop ((digitsOf n).length - (-e).toNat), x < 10 :=
        fun x hx => hds10 x (List.drop_subset _ _ hx)
      have hfne : (digitsOf n).drop ((digitsOf n).length - (-e).toNat) ≠ [] := by
        intro hnil
        have := congrArg List.length hnil
        simp at this
        omega
      rw [hB]
      rw [parseNumCore_eq neg _ _ _ _ _ _ 0
        (parseIntPart_digits _ _ h10t
          (by
            intro c hc
            simp at hc
            rw [← hc]
            decide)
          (Or.inr ⟨d, t.take j, htake, hdne⟩))
        (parseFracPart_dot _ rest hfne h10d hnds)
        (parseExp_no rest hex)]
      have hval : (catDigits ((digitsOf n).take ((digitsOf n).length - (-e).toNat)
          ++ (digitsOf n).drop ((digitsOf n).length - (-e).toNat)) : Int) = (n : Int) := by
        rw [List.take_append_drop, catDigits_digitsOf]
      rw [hval]
      have hflen : ((digitsOf n).drop ((digitsOf n).length - (-e).toNat)).length
          = (-e).toNat := by
        simp only [List.length_drop]
        omega
      rw [hflen]
      rw [show ((0 : Int) - (((-e).toNat : Nat) : Int)) = e from by omega]
      rw [canon_end _ e hMwf]
    · -- leading zeros after the point
      push_neg at hkl
      have hC : strNum (n : Int) e ++ rest =
          '0' :: ('.' :: ((List.replicate ((-e).toNat - (digitsOf n).length) 0
            ++ digitsOf n).map digChar ++ rest)) := by
        unfold strNum natToChars
        rw [if_neg hsign, if_neg (by omega), habs]
        rw [List.length_map, if_neg (by omega)]
        have h0 : digChar 0 = '0' := by decide
        simp [List.map_append, List.map_replicate, h0]
      have hip : parseIntPart ('0' :: ('.' :: ((List.replicate ((-e).toNat
          - (digitsOf n).length) 0 ++ digitsOf n).map digChar ++ rest)))
          = some ([0], '.' :: ((List.replicate ((-e).toNat - (digitsOf n).length) 0
            ++ digitsOf n).map digChar ++ rest)) := by
        simp [parseIntPart]
      have hfne : List.replicate ((-e).toNat - (digitsOf n).length) 0 ++ digitsOf n ≠ [] := by
        intro hnil
        have := congrArg List.length hnil
        simp [hlen] at this
      have h10f : ∀ x ∈ List.replicate ((-e).toNat - (digitsOf n).length) 0
          ++ digitsOf n, x < 10 := by
        intro x hx
        rcases List.mem_append.mp hx with hx | hx
        · have := List.eq_of_mem_replicate hx; omega
        · exact hds10 x hx
      rw [hC]
      rw [parseNumCore_eq neg _ _ _ _ _ _ 0
        hip
        (parseFracPart_dot _ rest hfne h10f hnds)
        (parseExp_no rest hex)]
      have hval : (catDigits ([0] ++ (List.replicate ((-e).toNat - (digitsOf n).length) 0
          ++ digitsOf n)) : Int) = (n : Int) := by
        have hrep : [0] ++ (List.replicate ((-e).toNat - (digitsOf n).length) 0 ++ digitsOf n)
            = List.replicate ((-e).toNat - (digitsOf n).length + 1) 0 ++ digitsOf n := by
          rw [← List.append_assoc]
          rfl
        rw [hrep, catDigits_zeros_append, catDigits_digitsOf]
      rw [hval]
      have hflen : (List.replicate ((-e).toNat - (digitsOf n).length) 0
          ++ digitsOf n).length = (-e).toNat := by
        simp only [List.length_append, List.length_replicate]
        omega
      rw [hflen]
      rw [show ((0 : Int) - (((-e).toNat : Nat) : Int)) = e from by omega]
      rw [canon_end _ e hMwf]

theorem strNum_split (m e : Int) :
    strNum m e = (if m < 0 then ['-'] else []) ++ strNum ((m.natAbs : Int)) e := by
  have h1 : ((m.natAbs : Int)).natAbs = m.natAbs := Int.natAbs_ofNat _
  have h2 : ¬ ((m.natAbs : Int) < 0) := by omega
  simp only [strNum, h1, if_neg h2]
  by_cases he : 0 ≤ e
  · simp [he]
  · simp only [if_neg he]
    by_cases hk : (-e).toNat < (natToChars m.natAbs).length
    · simp [hk]
    · simp [hk]

theorem strNum_head_digit (n : Nat) (e : Int) :
    ∃ c t, strNum ((n : Int)) e = c :: t ∧ isDig c = true := by
  have h1 : ((n : Int)).natAbs = n := Int.natAbs_ofNat _
  have h2 : ¬ ((n : Int) < 0) := by omega
  obtain ⟨d, ds, hds⟩ := List.exists_cons_of_ne_nil (digitsOf_ne_nil n)
  have hd10 : d < 10 := digitsOf_lt n d (by rw [hds]; exact List.mem_cons_self d ds)
  have hmap : natToChars n = digChar d :: ds.map digChar := by
    unfold natToChars
    rw [hds]
    rfl
  simp only [strNum, h1, if_neg h2]
  by_cases he : 0 ≤ e
  · refine ⟨digChar d, ds.map digChar ++ List.replicate e.toNat '0', ?_, isDig_digChar hd10⟩
    simp [he, hmap]
  · simp only [if_neg he]
    by_cases hk : (-e).toNat < (natToChars n).length
    · obtain ⟨j, hj⟩ : ∃ j, (natToChars n).length - (-e).toNat = j + 1 :=
        ⟨(natToChars n).length - (-e).toNat - 1, by
          have : 1 ≤ (natToChars n).length - (-e).toNat := by omega
          omega⟩
      refine ⟨digChar d, (ds.map digChar).take j ++
        '.' :: (natToChars n).drop ((natToChars n).length - (-e).toNat), ?_, isDig_digChar hd10⟩
      simp only [if_pos hk, hj]
      rw [hmap]
      simp [List.take_succ_cons]
    · refine ⟨'0', '.' :: List.replicate ((-e).toNat - (natToChars n).length) '0'
        ++ natToChars n, ?_, by decide⟩
      simp [hk]

theorem isDig_ne_minus {c : Char} (h : isDig c = true) : c ≠ '-' := by
  intro hc
  rw [hc] at h
  exact absurd h (by decide)

theorem parseNum_strNum (m e : Int) (hwf : wfNum m e) (rest : List Char)
    (hr : numBdy rest) :
    parseNum (strNum m e ++ rest) = some ((m, e), rest) := by
  have hwfabs : wfNum ((m.natAbs : Int)) e := by
    constructor
    · intro h0
      exact hwf.1 (by omega)
    · intro h0 hd
      exact hwf.2 (by omega) (Int.dvd_natAbs.mp hd)
  rw [strNum_split]
  by_cases hm : m < 0
  · rw [if_pos hm]
    simp only [List.cons_append, List.nil_append, List.append_assoc]
    have : parseNum ('-' :: (strNum ((m.natAbs : Int)) e ++ rest))
        = parseNumCore true (strNum ((m.natAbs : Int)) e ++ rest) := by
      simp [parseNum]
    rw [this, parseNumCore_strNum true m.natAbs e hwfabs rest hr]
    have h2 : (if true then -((m.natAbs : Int)) else ((m.natAbs : Int))) = m := by
      rw [if_pos rfl]
      omega
    rw [h2]
  · rw [if_neg hm]
    simp only [List.nil_append]
    obtain ⟨c, t, hct, hcd⟩ := strNum_head_digit m.natAbs e
    rw [hct, List.cons_append]
    have : parseNum (c :: (t ++ rest)) = parseNumCore false (c :: (t ++ rest)) := by
      simp [parseNum, isDig_ne_minus hcd]
    rw [this, ← List.cons_append, ← hct,
      parseNumCore_strNum false m.natAbs e hwfabs rest hr]
    have h2 : (if false then -((m.natAbs : Int)) else ((m.natAbs : Int))) = m := by
      rw [if_neg (by simp)]
      omega
    rw [h2]

/- ── string escaping round trip ────────────────────────────────── -/

theorem hexDigVal_hexDigChar {d : Nat} (h : d < 16) :
    hexDigVal (hexDigChar d) = some d := by
  by_cases h10 : d < 10
  · have hv : (48 + d).isValidChar := Or.inl (by omega)
    unfold hexDigChar
    rw [if_pos h10]
    unfold hexDigVal
    rw [toNat_ofNat_valid hv]
    rw [if_pos (by omega)]
    congr 1
    omega
  · have hv : (87 + d).isValidChar := Or.inl (by omega)
    unfold hexDigChar
    rw [if_neg h10]
    unfold hexDigVal
    rw [toNat_ofNat_valid hv]
    rw [if_neg (by omega), if_pos (by omega)]
    congr 1
    omega

theorem parseStr_quote (rest : List Char) : parseStr ('"' :: rest) = some ([], rest) := by
  rw [parseStr.eq_def]
  dsimp only
  rw [if_pos rfl]

theorem parseStr_esc (e : Char) (rest : List Char) (ch : Char)
    (he : ¬ e = 'u') (hu : unescChar e = some ch) :
    parseStr ('\\' :: e :: rest) = (parseStr rest).map (fun p => (ch :: p.1, p.2)) := by
  rw [parseStr.eq_def]
  dsimp only
  rw [if_neg (by decide), if_pos rfl, if_neg he, hu]

theorem parseStr_u (a b c3 d : Char) (rest : List Char) (x1 x2 x3 x4 : Nat)
    (ha : hexDigVal a = some x1) (hb : hexDigVal b = some x2)
    (hc : hexDigVal c3 = some x3) (hd : hexDigVal d = some x4)
    (hv : (((x1 * 16 + x2) * 16 + x3) * 16 + x4).isValidChar) :
    parseStr ('\\' :: 'u' :: a :: b :: c3 :: d :: rest) =
      (parseStr rest).map
        (fun p => (Char.ofNat (((x1 * 16 + x2) * 16 + x3) * 16 + x4) :: p.1, p.2)) := by
  rw [parseStr.eq_def]
  dsimp only
  rw [if_neg (by decide), if_pos rfl, if_pos rfl]
  rw [ha, hb, hc, hd]
  dsimp only
  rw [if_pos hv]

theorem parseStr_plain (c : Char) (rest : List Char)
    (h1 : ¬ c = '"') (h2 : ¬ c = '\\') (h8 : ¬ c.toNat < 32) :
    parseStr (c :: rest) = (parseStr rest).map (fun p => (c :: p.1, p.2)) := by
  rw [parseStr.eq_def]
  dsimp only
  rw [if_neg h1, if_neg h2, if_neg h8]

theorem parseStr_escStr (s rest : List Char) :
    parseStr (escStr s ++ '"' :: rest) = some (s, rest) := by
  induction s with
  | nil =>
    show parseStr ('"' :: rest) = some ([], rest)
    exact parseStr_quote rest
  | cons c s ih =>
    show parseStr ((escChar c ++ escStr s) ++ '"' :: rest) = some (c :: s, rest)
    rw [List.append_assoc]
    by_cases h1 : c = '"'
    · subst h1
      rw [show escChar '"' = ['\\', '"'] from by decide]
      rw [show (['\\', '"'] : List Char) ++ (escStr s ++ '"' :: rest)
        = '\\' :: '"' :: (escStr s ++ '"' :: rest) from rfl]
      rw [parseStr_esc _ _ '"' (by decide) (by decide), ih]
      rfl
    · by_cases h2 : c = '\\'
      · subst h2
        rw [show escChar '\\' = ['\\', '\\'] from by decide]
        rw [show (['\\', '\\'] : List Char) ++ (escStr s ++ '"' :: rest)
          = '\\' :: '\\' :: (escStr s ++ '"' :: rest) from rfl]
        rw [parseStr_esc _ _ '\\' (by decide) (by decide), ih]
        rfl
      · by_cases h3 : c = '\n'
        · subst h3
          rw [show escChar '\n' = ['\\', 'n'] from by decide]
          rw [show (['\\', 'n'] : List Char) ++ (escStr s ++ '"' :: rest)
            = '\\' :: 'n' :: (escStr s ++ '"' :: rest) from rfl]
          rw [parseStr_esc _ _ '\n' (by decide) (by decide), ih]
          rfl
        · by_cases h4 : c = '\r'
          · subst h4
            rw [show escChar '\r' = ['\\', 'r'] from by decide]
            rw [show (['\\', 'r'] : List Char) ++ (escStr s ++ '"' :: rest)
              = '\\' :: 'r' :: (escStr s ++ '"' :: rest) from rfl]
            rw [parseStr_esc _ _ '\r' (by decide) (by decide), ih]
            rfl
          · by_cases h5 : c = '\t'
            · subst h5
              rw [show escChar '\t' = ['\\', 't'] from by decide]
              rw [show (['\\', 't'] : List Char) ++ (escStr s ++ '"' :: rest)
                = '\\' :: 't' :: (escStr s ++ '"' :: rest) from rfl]
              rw [parseStr_esc _ _ '\t' (by decide) (by decide), ih]
              rfl
            · by_cases h6 : c.toNat = 8
              · have hc : escChar c = ['\\', 'b'] := by
                  unfold escChar
                  rw [if_neg h1, if_neg h2, if_neg h3, if_neg h4, if_neg h5, if_pos h6]
                have hch : Char.ofNat 8 = c := by
                  rw [← h6]
                  exact Char.ofNat_toNat c
                rw [hc]
                rw [show (['\\', 'b'] : List Char) ++ (escStr s ++ '"' :: rest)
                  = '\\' :: 'b' :: (escStr s ++ '"' :: rest) from rfl]
                rw [parseStr_esc _ _ (Char.ofNat 8) (by decide) (by decide), ih, hch]
                rfl
              · by_cases h7 : c.toNat = 12
                · have hc : escChar c = ['\\', 'f'] := by
                    unfold escChar
                    rw [if_neg h1, if_neg h2, if_neg h3, if_neg h4, if_neg h5,
                      if_neg h6, if_pos h7]
                  have hch : Char.ofNat 12 = c := by
                    rw [← h7]
                    exact Char.ofNat_toNat c
                  rw [hc]
                  rw [show (['\\', 'f'] : List Char) ++ (escStr s ++ '"' :: rest)
                    = '\\' :: 'f' :: (escStr s ++ '"' :: rest) from rfl]
                  rw [parseStr_esc _ _ (Char.ofNat 12) (by decide) (by decide), ih, hch]
                  rfl
                · by_cases h8 : c.toNat < 32
                  · have hc : escChar c = ['\\', 'u', '0', '0',
                        hexDigChar (c.toNat / 16), hexDigChar (c.toNat % 16)] := by
                      unfold escChar
                      rw [if_neg h1, if_neg h2, if_neg h3, if_neg h4, if_neg h5,
                        if_neg h6, if_neg h7, if_pos h8]
                    rw [hc]
                    rw [show (['\\', 'u', '0', '0', hexDigChar (c.toNat / 16),
                        hexDigChar (c.toNat % 16)] : List Char) ++ (escStr s ++ '"' :: rest)
                      = '\\' :: 'u' :: '0' :: '0' :: hexDigChar (c.toNat / 16)
                        :: hexDigChar (c.toNat % 16) :: (escStr s ++ '"' :: rest) from rfl]
                    rw [parseStr_u _ _ _ _ _ 0 0 (c.toNat / 16) (c.toNat % 16)
                      (by decide) (by decide)
                      (hexDigVal_hexDigChar (by omega))
                      (hexDigVal_hexDigChar (by omega))
                      (by
                        rw [show ((0 * 16 + 0) * 16 + c.toNat / 16) * 16 + c.toNat % 16
                          = c.toNat from by omega]
                        exact Or.inl (by omega)),
                      ih]
                    rw [show ((0 * 16 + 0) * 16 + c.toNat / 16) * 16 + c.toNat % 16
                      = c.toNat from by omega]
                    rw [Char.ofNat_toNat c]
                    rfl
                  · have hc : escChar c = [c] := by
                      unfold escChar
                      rw [if_neg h1, if_neg h2, if_neg h3, if_neg h4, if_neg h5,
                        if_neg h6, if_neg h7, if_neg h8]
                    rw [hc]
                    rw [show ([c] : List Char) ++ (escStr s ++ '"' :: rest)
                      = c :: (escStr s ++ '"' :: rest) from rfl]
                    rw [parseStr_plain c _ h1 h2 h8, ih]
                    rfl

/- ── heads of serialized values ────────────────────────────────── -/

theorem strNum_ne_nil (m e : Int) : strNum m e ≠ [] := by
  have hmap : natToChars m.natAbs ≠ [] := by
    unfold natToChars
    simp [digitsOf_ne_nil]
  unfold strNum
  by_cases he : 0 ≤ e
  · simp [he, hmap]
  · simp only [if_neg he]
    by_cases hk : (-e).toNat < (natToChars m.natAbs).length
    · simp [if_pos hk]
    · simp [if_neg hk]

theorem strNum_mem (m e : Int) :
    ∀ c ∈ strNum m e, c = '-' ∨ c = '.' ∨ isDig c = true := by
  intro c hc
  have hmap : ∀ x ∈ natToChars m.natAbs, x = '-' ∨ x = '.' ∨ isDig x = true := by
    intro x hx
    unfold natToChars at hx
    obtain ⟨d, hd, rfl⟩ := List.mem_map.mp hx
    exact Or.inr (Or.inr (isDig_digChar (digitsOf_lt _ d hd)))
  have hsign : ∀ x : Char, x ∈ (if m < 0 then ['-'] else ([] : List Char)) → x = '-' := by
    intro x hx
    split at hx <;> simp at hx
    exact hx
  unfold strNum at hc
  by_cases he : 0 ≤ e
  · rw [if_pos he] at hc
    rcases List.mem_append.mp hc with hc | hc
    · rcases List.mem_append.mp hc with hc | hc
      · exact Or.inl (hsign c hc)
      · exact hmap c hc
    · have := List.eq_of_mem_replicate hc
      subst this
      right; right; decide
  · rw [if_neg he] at hc
    by_cases hk : (-e).toNat < (natToChars m.natAbs).length
    · rw [if_pos hk] at hc
      rcases List.mem_append.mp hc with hc | hc
      · rcases List.mem_append.mp hc with hc | hc
        · exact Or.inl (hsign c hc)
        · exact hmap c (List.take_subset _ _ hc)
      · rcases List.mem_cons.mp hc with hc | hc
        · subst hc; right; left; rfl
        · exact hmap c (List.drop_subset _ _ hc)
    · rw [if_neg hk] at hc
      rcases List.mem_append.mp hc with hc | hc
      · rcases List.mem_append.mp hc with hc | hc
        · exact Or.inl (hsign c hc)
        · rcases List.mem_cons.mp hc with hc | hc
          · subst hc; right; right; decide
          · rcases List.mem_cons.mp hc with hc | hc
            · subst hc; right; left; rfl
            · have := List.eq_of_mem_replicate hc
              subst this
              right; right; decide
      · exact hmap c hc

/-- The characters that can begin a serialized JSON value. -/
def headOK (c : Char) : Prop :=
  c = 'n' ∨ c = 't' ∨ c = 'f' ∨ c = '"' ∨ c = '[' ∨ c = lbrace ∨
    c = '-' ∨ c = '.' ∨ isDig c = true

theorem headOK_not_ws {c : Char} (h : headOK c) : jsonWsB c = false := by
  rcases h with h | h | h | h | h | h | h | h | h
  all_goals first
    | (subst h; decide)
    | (unfold isDig at h
       simp at h
       simp [jsonWsB]
       omega)

theorem headOK_ne {c : Char} (h : headOK c) :
    c ≠ ']' ∧ c ≠ rbrace ∧ c ≠ ',' ∧ c ≠ ':' := by
  rcases h with h | h | h | h | h | h | h | h | h
  all_goals first
    | (subst h; refine ⟨by decide, by decide, by decide, by decide⟩)
    | (unfold isDig at h
       simp at h
       refine ⟨?_, ?_, ?_, ?_⟩ <;>
         (intro hc; subst hc; revert h; decide))

theorem strV_head (v : Json) : ∃ c t, strV v = c :: t ∧ headOK c := by
  match v with
  | .null => exact ⟨'n', _, rfl, Or.inl rfl⟩
  | .bool true => exact ⟨'t', _, rfl, Or.inr (Or.inl rfl)⟩
  | .bool false => exact ⟨'f', _, rfl, Or.inr (Or.inr (Or.inl rfl))⟩
  | .num m e =>
    obtain ⟨c, t, hct⟩ := List.exists_cons_of_ne_nil (strNum_ne_nil m e)
    refine ⟨c, t, hct, ?_⟩
    have hmem : c ∈ strNum m e := by rw [hct]; exact List.mem_cons_self c t
    rcases strNum_mem m e c hmem with h | h | h
    · exact Or.inr (Or.inr (Or.inr (Or.inr (Or.inr (Or.inr (Or.inl h))))))
    · exact Or.inr (Or.inr (Or.inr (Or.inr (Or.inr (Or.inr (Or.inr (Or.inl h)))))))
    · exact Or.inr (Or.inr (Or.inr (Or.inr (Or.inr (Or.inr (Or.inr (Or.inr h)))))))
  | .str s =>
    exact ⟨'"', _, rfl, Or.inr (Or.inr (Or.inr (Or.inl rfl)))⟩
  | .arr a =>
    exact ⟨'[', _, rfl, Or.inr (Or.inr (Or.inr (Or.inr (Or.inl rfl))))⟩
  | .obj o =>
    exact ⟨lbrace, _, rfl, Or.inr (Or.inr (Or.inr (Or.inr (Or.inr (Or.inl rfl)))))⟩

theorem strItems_cons_head (v : Json) (t : JArr) :
    ∃ c u, strItems (JArr.cons v t) = c :: u ∧ headOK c := by
  obtain ⟨c, u, hcu, hok⟩ := strV_head v
  match t with
  | .nil => exact ⟨c, u, by rw [strItems, hcu], hok⟩
  | .cons w t' =>
    refine ⟨c, u ++ ',' :: strItems (JArr.cons w t'), ?_, hok⟩
    rw [strItems, hcu]
    rfl

theorem skipWs_cons {c : Char} (t : List Char) (h : jsonWsB c = false) :
    skipWs (c :: t) = c :: t := by
  simp [skipWs, List.dropWhile, h]

theorem keys_jcat (a b : JObj) :
    JObj.keys (jcat a b) = JObj.keys a ++ JObj.keys b := by
  match a with
  | .nil => rfl
  | .cons k v t => simp [jcat, JObj.keys, keys_jcat t b]

theorem cntV_pos (v : Json) : 1 ≤ cntV v := by
  match v with
  | .null | .bool _ | .num _ _ | .str _ => simp [cntV]
  | .arr a => exact Nat.le_add_right 1 (cntA a)
  | .obj o => exact Nat.le_add_right 1 (cntO o)


/- ── full round trip: parsing a serialized value ───────────────── -/

/-- Shapes a rest list may take after a serialized value inside a
larger serialized term. -/
def bdy (l : List Char) : Prop :=
  l = [] ∨ ∃ c r, l = c :: r ∧ (c = ',' ∨ c = ']' ∨ c = rbrace)

theorem bdy_numBdy {l : List Char} (h : bdy l) : numBdy l := by
  intro c hc
  rcases h with rfl | ⟨c', r, rfl, hcc⟩
  · simp at hc
  · simp at hc
    subst hc
    rcases hcc with rfl | rfl | rfl
    · exact ⟨by decide, by decide, by decide, by decide⟩
    · exact ⟨by decide, by decide, by decide, by decide⟩
    · exact ⟨by decide, by decide, by decide, by decide⟩

theorem strFields_cons_head (k : List Char) (w : Json) (t : JObj) :
    ∃ x, strFields (JObj.cons k w t) = '"' :: x := by
  match t with
  | .nil => exact ⟨_, rfl⟩
  | .cons k2 w2 t2 => exact ⟨_, rfl⟩

mutual
theorem rtV (fuel : Nat) (v : Json) (rest : List Char) (hwf : wfV v)
    (hcnt : cntV v ≤ fuel) (hb : bdy rest) :
    parseValue fuel (strV v ++ rest) = some (v, rest) := by
  obtain ⟨f, rfl⟩ : ∃ f, fuel = f + 1 := ⟨fuel - 1, by have := cntV_pos v; omega⟩
  match v with
  | .null =>
    show parseValue (f + 1) ('n' :: 'u' :: 'l' :: 'l' :: rest) = some (.null, rest)
    rw [parseValue.eq_def]
    try dsimp only
    rw [if_neg (by decide), if_neg (by decide), if_neg (by decide), if_pos (by rfl)]
    rfl
  | .bool true =>
    show parseValue (f + 1) ('t' :: 'r' :: 'u' :: 'e' :: rest) = some (.bool true, rest)
    rw [parseValue.eq_def]
    try dsimp only
    rw [if_neg (by decide), if_neg (by decide), if_neg (by decide),
      if_neg (by
        rw [show List.take 4 ('t' :: 'r' :: 'u' :: 'e' :: rest)
          = ['t', 'r', 'u', 'e'] from rfl]
        decide),
      if_pos (by rfl)]
    rfl
  | .bool false =>
    show parseValue (f + 1) ('f' :: 'a' :: 'l' :: 's' :: 'e' :: rest) = some (.bool false, rest)
    rw [parseValue.eq_def]
    try dsimp only
    rw [if_neg (by decide), if_neg (by decide), if_neg (by decide),
      if_neg (by
        rw [show List.take 4 ('f' :: 'a' :: 'l' :: 's' :: 'e' :: rest)
          = ['f', 'a', 'l', 's'] from rfl]
        decide),
      if_neg (by
        rw [show List.take 4 ('f' :: 'a' :: 'l' :: 's' :: 'e' :: rest)
          = ['f', 'a', 'l', 's'] from rfl]
        decide),
      if_pos (by rfl)]
    rfl
  | .num m e =>
    obtain ⟨c0, t0, hct⟩ := List.exists_cons_of_ne_nil (strNum_ne_nil m e)
    have hmem : c0 ∈ strNum m e := by rw [hct]; exact List.mem_cons_self c0 t0
    have hnum := strNum_mem m e c0 hmem
    have hne : c0 ≠ '"' ∧ c0 ≠ lbrace ∧ c0 ≠ '[' ∧ c0 ≠ 'n' ∧ c0 ≠ 't' ∧ c0 ≠ 'f' := by
      rcases hnum with h | h | h
      · subst h; exact ⟨by decide, by decide, by decide, by decide, by decide, by decide⟩
      · subst h; exact ⟨by decide, by decide, by decide, by decide, by decide, by decide⟩
      · unfold isDig at h
        simp at h
        refine ⟨?_, ?_, ?_, ?_, ?_, ?_⟩ <;> (intro hc; subst hc; revert h; decide)
    show parseValue (f + 1) (strNum m e ++ rest) = some (.num m e, rest)
    rw [hct, List.cons_append, parseValue.eq_def]
    try dsimp only
    rw [if_neg hne.1, if_neg hne.2.1, if_neg hne.2.2.1]
    rw [if_neg (by
      intro hEq
      rw [show (c0 :: (t0 ++ rest)).take 4 = c0 :: (t0 ++ rest).take 3 from rfl] at hEq
      injection hEq with h1 h2
      exact hne.2.2.2.1 h1)]
    rw [if_neg (by
      intro hEq
      rw [show (c0 :: (t0 ++ rest)).take 4 = c0 :: (t0 ++ rest).take 3 from rfl] at hEq
      injection hEq with h1 h2
      exact hne.2.2.2.2.1 h1)]
    rw [if_neg (by
      intro hEq
      rw [show (c0 :: (t0 ++ rest)).take 5 = c0 :: (t0 ++ rest).take 4 from rfl] at hEq
      injection hEq with h1 h2
      exact hne.2.2.2.2.2 h1)]
    rw [← List.cons_append, ← hct, parseNum_strNum m e hwf rest (bdy_numBdy hb)]
    rfl
  | .str s =>
    show parseValue (f + 1) (('"' :: escStr s ++ ['"']) ++ rest) = some (.str s, rest)
    rw [show ('"' :: escStr s ++ ['"']) ++ rest = '"' :: (escStr s ++ '"' :: rest) from by
      simp]
    rw [parseValue.eq_def]
    try dsimp only
    rw [if_pos rfl, parseStr_escStr]
    rfl
  | .arr .nil =>
    show parseValue (f + 1) (('[' :: strItems JArr.nil ++ [']']) ++ rest)
      = some (.arr JArr.nil, rest)
    rw [show ('[' :: strItems JArr.nil ++ [']']) ++ rest = '[' :: ']' :: rest from rfl]
    rw [parseValue.eq_def]
    try dsimp only
    rw [if_neg (by decide), if_neg (by decide), if_pos rfl]
    rw [skipWs_cons _ (by decide)]
    try dsimp only
    rw [if_pos rfl]
  | .arr (.cons w t) =>
    obtain ⟨c1, u1, hc1, hok1⟩ := strItems_cons_head w t
    have hcnt' : 1 + cntA (JArr.cons w t) ≤ f + 1 := hcnt
    show parseValue (f + 1) (('[' :: strItems (JArr.cons w t) ++ [']']) ++ rest)
      = some (.arr (JArr.cons w t), rest)
    rw [show ('[' :: strItems (JArr.cons w t) ++ [']']) ++ rest
      = '[' :: (strItems (JArr.cons w t) ++ ']' :: rest) from by simp]
    rw [parseValue.eq_def]
    try dsimp only
    rw [if_neg (by decide), if_neg (by decide), if_pos rfl]
    rw [hc1, List.cons_append, skipWs_cons _ (headOK_not_ws hok1)]
    try dsimp only
    rw [if_neg (headOK_ne hok1).1]
    rw [← List.cons_append, ← hc1]
    rw [rtItems f (JArr.cons w t) rest hwf (by omega) (by simp)]
    rfl
  | .obj .nil =>
    show parseValue (f + 1) ((lbrace :: strFields JObj.nil ++ [rbrace]) ++ rest)
      = some (.obj JObj.nil, rest)
    rw [show (lbrace :: strFields JObj.nil ++ [rbrace]) ++ rest
      = lbrace :: rbrace :: rest from rfl]
    rw [parseValue.eq_def]
    try dsimp only
    rw [if_neg (by decide), if_pos rfl]
    rw [skipWs_cons _ (by decide)]
    try dsimp only
    rw [if_pos rfl]
  | .obj (.cons k w t) =>
    obtain ⟨x, hsf⟩ := strFields_cons_head k w t
    have hcnt' : 1 + cntO (JObj.cons k w t) ≤ f + 1 := hcnt
    show parseValue (f + 1) ((lbrace :: strFields (JObj.cons k w t) ++ [rbrace]) ++ rest)
      = some (.obj (JObj.cons k w t), rest)
    rw [show (lbrace :: strFields (JObj.cons k w t) ++ [rbrace]) ++ rest
      = lbrace :: (strFields (JObj.cons k w t) ++ rbrace :: rest) from by simp]
    rw [parseValue.eq_def]
    try dsimp only
    rw [if_neg (by decide), if_pos rfl]
    rw [hsf, List.cons_append, skipWs_cons _ (by decide)]
    try dsimp only
    rw [if_neg (by decide)]
    rw [← List.cons_append, ← hsf]
    rw [rtFields f (JObj.cons k w t) JObj.nil rest hwf (by omega) (by simp)
      (by intro k' hk'; simp [JObj.keys])]
    rfl
theorem rtItems (fuel : Nat) (a : JArr) (rest : List Char) (hwf : wfA a)
    (hcnt : cntA a ≤ fuel) (hne : a ≠ JArr.nil) :
    parseItems fuel (strItems a ++ ']' :: rest) = some (a, rest) := by
  match a with
  | .nil => exact absurd rfl hne
  | .cons v t =>
    have hcnt' : 1 + cntV v + cntA t ≤ fuel := hcnt
    obtain ⟨f, rfl⟩ : ∃ f, fuel = f + 1 := ⟨fuel - 1, by omega⟩
    match t with
    | .nil =>
      show parseItems (f + 1) (strV v ++ ']' :: rest) = some (JArr.cons v JArr.nil, rest)
      rw [parseItems.eq_def]
      try dsimp only
      rw [rtV f v (']' :: rest) hwf.1 (by omega)
        (Or.inr ⟨']', rest, rfl, Or.inr (Or.inl rfl)⟩)]
      rw [Option.some_bind]
      try dsimp only
      rw [skipWs_cons _ (by decide)]
      try dsimp only
      rw [if_neg (by decide), if_pos rfl]
    | .cons w u =>
      obtain ⟨c1, u1, hc1, hok1⟩ := strItems_cons_head w u
      have hcnt2 : 1 + cntV w + cntA u ≤ cntA (JArr.cons w u) := by
        simp [cntA]
      show parseItems (f + 1) ((strV v ++ ',' :: strItems (JArr.cons w u)) ++ ']' :: rest)
        = some (JArr.cons v (JArr.cons w u), rest)
      rw [show (strV v ++ ',' :: strItems (JArr.cons w u)) ++ ']' :: rest
        = strV v ++ ',' :: (strItems (JArr.cons w u) ++ ']' :: rest) from by simp]
      rw [parseItems.eq_def]
      try dsimp only
      rw [rtV f v _ hwf.1 (by omega) (Or.inr ⟨',', _, rfl, Or.inl rfl⟩)]
      rw [Option.some_bind]
      try dsimp only
      rw [skipWs_cons _ (by decide)]
      try dsimp only
      rw [if_pos rfl]
      rw [hc1, List.cons_append, skipWs_cons _ (headOK_not_ws hok1),
        ← List.cons_append, ← hc1]
      rw [rtItems f (JArr.cons w u) rest hwf.2 (by omega) (by simp)]
      rfl
theorem rtFields (fuel : Nat) (o : JObj) (acc : JObj) (rest : List Char) (hwf : wfO o)
    (hcnt : cntO o ≤ fuel) (hne : o ≠ JObj.nil)
    (hdis : ∀ k ∈ JObj.keys o, ¬ k ∈ JObj.keys acc) :
    parseFields fuel (strFields o ++ rbrace :: rest) acc
      = some (Json.obj (jcat acc o), rest) := by
  match o with
  | .nil => exact absurd rfl hne
  | .cons k w t =>
    have hcnt' : 1 + cntV w + cntO t ≤ fuel := hcnt
    obtain ⟨f, rfl⟩ : ∃ f, fuel = f + 1 := ⟨fuel - 1, by omega⟩
    have hknotacc : ¬ k ∈ JObj.keys acc := hdis k (by simp [JObj.keys])
    match t with
    | .nil =>
      show parseFields (f + 1)
        (('"' :: escStr k ++ '"' :: ':' :: strV w) ++ rbrace :: rest) acc
        = some (Json.obj (jcat acc (JObj.cons k w JObj.nil)), rest)
      rw [show ('"' :: escStr k ++ '"' :: ':' :: strV w) ++ rbrace :: rest
        = '"' :: (escStr k ++ '"' :: (':' :: (strV w ++ rbrace :: rest))) from by simp]
      rw [parseFields.eq_def]
      try dsimp only
      rw [if_pos rfl]
      rw [parseStr_escStr k (':' :: (strV w ++ rbrace :: rest))]
      rw [Option.some_bind]
      try dsimp only
      rw [skipWs_cons _ (by decide)]
      try dsimp only
      rw [if_pos rfl]
      obtain ⟨cw, tw, hcw, hokw⟩ := strV_head w
      rw [hcw, List.cons_append, skipWs_cons _ (headOK_not_ws hokw),
        ← List.cons_append, ← hcw]
      rw [rtV f w (rbrace :: rest) hwf.1 (by omega)
        (Or.inr ⟨rbrace, rest, rfl, Or.inr (Or.inr rfl)⟩)]
      rw [Option.some_bind]
      try dsimp only
      rw [skipWs_cons _ (by decide)]
      try dsimp only
      rw [if_neg (by decide), if_pos rfl]
      rw [insertKey_notMem acc k w hknotacc]
    | .cons k2 w2 t2 =>
      obtain ⟨x2, hsf2⟩ := strFields_cons_head k2 w2 t2
      have hcnt2 : 1 + cntV w2 + cntO t2 ≤ cntO (JObj.cons k2 w2 t2) := by
        simp [cntO]
      show parseFields (f + 1)
        (('"' :: escStr k ++ '"' :: ':' :: strV w ++ ',' :: strFields (JObj.cons k2 w2 t2))
          ++ rbrace :: rest) acc
        = some (Json.obj (jcat acc (JObj.cons k w (JObj.cons k2 w2 t2))), rest)
      rw [show ('"' :: escStr k ++ '"' :: ':' :: strV w
          ++ ',' :: strFields (JObj.cons k2 w2 t2)) ++ rbrace :: rest
        = '"' :: (escStr k ++ '"' :: (':' :: (strV w
          ++ ',' :: (strFields (JObj.cons k2 w2 t2) ++ rbrace :: rest)))) from by simp]
      rw [parseFields.eq_def]
      try dsimp only
      rw [if_pos rfl]
      rw [parseStr_escStr k (':' :: (strV w
        ++ ',' :: (strFields (JObj.cons k2 w2 t2) ++ rbrace :: rest)))]
      rw [Option.some_bind]
      try dsimp only
      rw [skipWs_cons _ (by decide)]
      try dsimp only
      rw [if_pos rfl]
      obtain ⟨cw, tw, hcw, hokw⟩ := strV_head w
      rw [hcw, List.cons_append, skipWs_cons _ (headOK_not_ws hokw),
        ← List.cons_append, ← hcw]
      rw [rtV f w _ hwf.1 (by omega) (Or.inr ⟨',', _, rfl, Or.inl rfl⟩)]
      rw [Option.some_bind]
      try dsimp only
      rw [skipWs_cons _ (by decide)]
      try dsimp only
      rw [if_pos rfl]
      rw [hsf2, List.cons_append, skipWs_cons _ (by decide), ← List.cons_append, ← hsf2]
      rw [insertKey_notMem acc k w hknotacc]
      rw [rtFields f (JObj.cons k2 w2 t2) (jcat acc (JObj.cons k w JObj.nil)) rest
        hwf.2.2 (by omega) (by simp)
        (by
          intro k' hk'
          rw [keys_jcat]
          simp only [JObj.keys, List.mem_append, List.mem_cons, List.not_mem_nil]
          push_neg
          refine ⟨hdis k' (List.mem_cons_of_mem k hk'), ?_, fun h => h⟩
          intro hkk
          subst hkk
          exact hwf.2.1 hk')]
      rw [jcat_assoc]
      rfl
end

/- ── fuel bound: the parser needs at most one unit per character ── -/

mutual
theorem cntV_le_len (v : Json) : cntV v ≤ (strV v).length := by
  match v with
  | .null => simp [cntV, strV]
  | .bool true => simp [cntV, strV]
  | .bool false => simp [cntV, strV]
  | .num m e =>
    simp only [cntV, strV]
    exact List.length_pos.mpr (strNum_ne_nil m e)
  | .str s => simp [cntV, strV]
  | .arr a =>
    have h := cntA_le_len a
    simp only [cntV, strV, List.length_cons, List.length_append]
    simp at h ⊢
    omega
  | .obj o =>
    have h := cntO_le_len o
    simp only [cntV, strV, List.length_cons, List.length_append]
    simp at h ⊢
    omega
theorem cntA_le_len (a : JArr) : cntA a ≤ (strItems a).length + 1 := by
  match a with
  | .nil => simp [cntA, strItems]
  | .cons v .nil =>
    have h := cntV_le_len v
    simp only [cntA, strItems]
    have h0 : cntA JArr.nil = 0 := rfl
    omega
  | .cons v (JArr.cons w t) =>
    have h1 := cntV_le_len v
    have h2 := cntA_le_len (JArr.cons w t)
    simp only [cntA] at h2
    simp only [cntA, strItems, List.length_append, List.length_cons]
    omega
theorem cntO_le_len (o : JObj) : cntO o ≤ (strFields o).length + 1 := by
  match o with
  | .nil => simp [cntO, strFields]
  | .cons k v .nil =>
    have h := cntV_le_len v
    simp only [cntO, strFields, List.length_cons, List.length_append]
    have h0 : cntO JObj.nil = 0 := rfl
    omega
  | .cons k v (JObj.cons k2 w2 t2) =>
    have h1 := cntV_le_len v
    have h2 := cntO_le_len (JObj.cons k2 w2 t2)
    simp only [cntO] at h2
    simp only [cntO, strFields, List.length_cons, List.length_append]
    omega
end

/- ── parse results are well-formed ─────────────────────────────── -/

theorem keys_insertKey_mem (t : JObj) (k : List Char) (v : Json) (k' : List Char)
    (h : k' ∈ JObj.keys (insertKey t k v)) : k' ∈ JObj.keys t ∨ k' = k := by
  match t with
  | .nil =>
    simp [insertKey, JObj.keys] at h
    exact Or.inr h
  | .cons k0 v0 t0 =>
    rw [insertKey] at h
    split at h
    · simp [JObj.keys] at h
      rcases h with h | h
      · exact Or.inl (by simp [JObj.keys, h])
      · exact Or.inl (by simp [JObj.keys, h])
    · simp only [JObj.keys, List.mem_cons] at h
      rcases h with h | h
      · exact Or.inl (by simp [JObj.keys, h])
      · rcases keys_insertKey_mem t0 k v k' h with h | h
        · exact Or.inl (by simp [JObj.keys, h])
        · exact Or.inr h

theorem insertKey_wf (acc : JObj) (k : List Char) (v : Json)
    (hacc : wfO acc) (hv : wfV v) : wfO (insertKey acc k v) := by
  match acc with
  | .nil => exact ⟨hv, by simp [JObj.keys], trivial⟩
  | .cons k0 v0 t0 =>
    obtain ⟨hv0, hk0, ht0⟩ := hacc
    rw [insertKey]
    split
    · exact ⟨hv, hk0, ht0⟩
    · rename_i hne
      refine ⟨hv0, ?_, insertKey_wf t0 k v ht0 hv⟩
      intro hmem
      rcases keys_insertKey_mem t0 k v k0 hmem with h | h
      · exact hk0 h
      · exact hne h

theorem wfNum_of_canon_eq {x y m e : Int} (h : canon x y = (m, e)) : wfNum m e := by
  have hw := canon_wf x y
  rw [h] at hw
  exact hw

theorem parseNumCore_wf (neg : Bool) (l : List Char) (m e : Int) (r : List Char)
    (h : parseNumCore neg l = some ((m, e), r)) : wfNum m e := by
  unfold parseNumCore at h
  split at h
  · exact absurd h (by simp)
  · split at h
    · exact absurd h (by simp)
    · split at h
      · exact absurd h (by simp)
      · rw [Option.some_inj, Prod.mk.injEq] at h
        exact wfNum_of_canon_eq h.1

theorem parseNum_wf (l : List Char) (m e : Int) (r : List Char)
    (h : parseNum l = some ((m, e), r)) : wfNum m e := by
  unfold parseNum at h
  split at h
  · split at h
    · exact parseNumCore_wf _ _ _ _ _ h
    · exact parseNumCore_wf _ _ _ _ _ h
  · exact parseNumCore_wf _ _ _ _ _ h

theorem parse_wf (fuel : Nat) :
    (∀ l v r, parseValue fuel l = some (v, r) → wfV v) ∧
    (∀ l a r, parseItems fuel l = some (a, r) → wfA a) ∧
    (∀ l acc v r, wfO acc → parseFields fuel l acc = some (v, r) → wfV v) := by
  induction fuel with
  | zero =>
    refine ⟨?_, ?_, ?_⟩
    · intro l v r h
      rw [parseValue.eq_def] at h
      exact absurd h (by simp)
    · intro l a r h
      rw [parseItems.eq_def] at h
      exact absurd h (by simp)
    · intro l acc v r hacc h
      rw [parseFields.eq_def] at h
      exact absurd h (by simp)
  | succ f ih =>
    obtain ⟨ihV, ihA, ihF⟩ := ih
    refine ⟨?_, ?_, ?_⟩
    · intro l v r h
      match l with
      | [] =>
        rw [parseValue.eq_def] at h
        exact absurd h (by simp)
      | c :: cr =>
        rw [parseValue.eq_def] at h
        dsimp only at h
        split at h
        · rcases Option.map_eq_some'.mp h with ⟨p, hp, hv⟩
          rw [Prod.mk.injEq] at hv
          rw [← hv.1]
          simp [wfV]
        · split at h
          · split at h
            · split at h
              · rw [Option.some_inj, Prod.mk.injEq] at h
                rw [← h.1]
                simp [wfV, wfO]
              · exact ihF _ _ _ _ (by simp [wfO]) h
            · exact absurd h (by simp)
          · split at h
            · split at h
              · split at h
                · rw [Option.some_inj, Prod.mk.injEq] at h
                  rw [← h.1]
                  simp [wfV, wfA]
                · rcases Option.map_eq_some'.mp h with ⟨p, hp, hv⟩
                  rw [Prod.mk.injEq] at hv
                  rw [← hv.1]
                  have := ihA _ _ _ hp
                  simpa [wfV] using this
              · exact absurd h (by simp)
            · split at h
              · rw [Option.some_inj, Prod.mk.injEq] at h
                rw [← h.1]
                simp [wfV]
              · split at h
                · rw [Option.some_inj, Prod.mk.injEq] at h
                  rw [← h.1]
                  simp [wfV]
                · split at h
                  · rw [Option.some_inj, Prod.mk.injEq] at h
                    rw [← h.1]
                    simp [wfV]
                  · rcases Option.map_eq_some'.mp h with ⟨p, hp, hv⟩
                    rw [Prod.mk.injEq] at hv
                    rw [← hv.1]
                    have := parseNum_wf _ p.1.1 p.1.2 p.2 (by
                      rw [hp])
                    simpa [wfV] using this
    · intro l a r h
      rw [parseItems.eq_def] at h
      dsimp only at h
      rcases hpv : parseValue f l with _ | p
      · rw [hpv] at h
        exact absurd h (by simp)
      · rw [hpv, Option.some_bind] at h
        split at h
        · split at h
          · rcases Option.map_eq_some'.mp h with ⟨q, hq, hv⟩
            rw [Prod.mk.injEq] at hv
            rw [← hv.1]
            have h1 := ihV _ _ _ hpv
            have h2 := ihA _ _ _ hq
            simp [wfA]
            exact ⟨h1, h2⟩
          · split at h
            · rw [Option.some_inj, Prod.mk.injEq] at h
              rw [← h.1]
              have h1 := ihV _ _ _ hpv
              simp [wfA]
              exact h1
            · exact absurd h (by simp)
        · exact absurd h (by simp)
    · intro l acc v r hacc h
      match l with
      | [] =>
        rw [parseFields.eq_def] at h
        exact absurd h (by simp)
      | c :: cr =>
        rw [parseFields.eq_def] at h
        dsimp only at h
        split at h
        · rcases hps : parseStr cr with _ | pk
          · rw [hps] at h
            exact absurd h (by simp)
          · rw [hps, Option.some_bind] at h
            split at h
            · split at h
              · rcases hpv : parseValue f (skipWs _) with _ | pv
                · rw [hpv] at h
                  exact absurd h (by simp)
                · rw [hpv, Option.some_bind] at h
                  have hwv := ihV _ _ _ hpv
                  have hacc2 := insertKey_wf acc pk.1 pv.1 hacc hwv
                  split at h
                  · split at h
                    · exact ihF _ _ _ _ hacc2 h
                    · split at h
                      · rw [Option.some_inj, Prod.mk.injEq] at h
                        rw [← h.1]
                        simpa [wfV] using hacc2
                      · exact absurd h (by simp)
                  · exact absurd h (by simp)
              · exact absurd h (by simp)
            · exact absurd h (by simp)
        · exact absurd h (by simp)

theorem jsonParse_wf (l : List Char) (v : Json) (h : jsonParse l = some v) : wfV v := by
  unfold jsonParse at h
  rcases hpv : parseValue (l.length + 1) (skipWs l) with _ | ⟨w, r⟩
  · rw [hpv] at h
    exact absurd h (by simp)
  · rw [hpv] at h
    dsimp only at h
    split at h
    · rw [Option.some_inj] at h
      rw [← h]
      exact (parse_wf (l.length + 1)).1 _ _ _ hpv
    · exact absurd h (by simp)

/- ── serialized values survive trim ────────────────────────────── -/

theorem mem_of_getLast? {l : List Char} {c : Char} (h : l.getLast? = some c) : c ∈ l := by
  have hm := List.mem_of_mem_head? (l := l.reverse) (by rw [List.head?_reverse]; exact h)
  simpa using hm

theorem headOK_not_jsWs {c : Char} (h : headOK c) : jsWsB c = false := by
  rcases h with h | h | h | h | h | h | h | h | h
  all_goals first
    | (subst h; decide)
    | (unfold isDig at h
       simp at h
       simp [jsWsB]
       omega)

theorem numChar_not_jsWs {c : Char} (h : c = '-' ∨ c = '.' ∨ isDig c = true) :
    jsWsB c = false := by
  rcases h with h | h | h
  · subst h; decide
  · subst h; decide
  · unfold isDig at h
    simp at h
    simp [jsWsB]
    omega

theorem getLast?_of_ne_nil {l : List Char} (h : l ≠ []) : ∃ c, l.getLast? = some c := by
  cases hl : l.getLast? with
  | none =>
    rw [List.getLast?_eq_none_iff] at hl
    exact absurd hl h
  | some c => exact ⟨c, rfl⟩

theorem strV_last (v : Json) : ∃ c, (strV v).getLast? = some c ∧ jsWsB c = false := by
  match v with
  | .null => exact ⟨'l', by decide, by decide⟩
  | .bool true => exact ⟨'e', by decide, by decide⟩
  | .bool false => exact ⟨'e', by decide, by decide⟩
  | .num m e =>
    obtain ⟨c, hc⟩ := getLast?_of_ne_nil (strNum_ne_nil m e)
    exact ⟨c, hc, numChar_not_jsWs (strNum_mem m e c (mem_of_getLast? hc))⟩
  | .str s =>
    refine ⟨'"', ?_, by decide⟩
    show ('"' :: escStr s ++ ['"']).getLast? = some '"'
    rw [show '"' :: escStr s ++ ['"'] = ('"' :: escStr s) ++ ['"'] from rfl]
    exact List.getLast?_concat _
  | .arr a =>
    refine ⟨']', ?_, by decide⟩
    show ('[' :: strItems a ++ [']']).getLast? = some ']'
    rw [show '[' :: strItems a ++ [']'] = ('[' :: strItems a) ++ [']'] from rfl]
    exact List.getLast?_concat _
  | .obj o =>
    refine ⟨rbrace, ?_, by decide⟩
    show (lbrace :: strFields o ++ [rbrace]).getLast? = some rbrace
    rw [show lbrace :: strFields o ++ [rbrace] = (lbrace :: strFields o) ++ [rbrace] from rfl]
    exact List.getLast?_concat _

theorem jsTrim_noop (l : List Char)
    (hh : ∀ c, l.head? = some c → jsWsB c = false)
    (hl : ∀ c, l.getLast? = some c → jsWsB c = false) :
    jsTrim l = l := by
  unfold jsTrim
  have h1 : l.dropWhile jsWsB = l := by
    cases l with
    | nil => rfl
    | cons c t => simp [List.dropWhile, hh c rfl]
  rw [h1]
  have h2 : l.reverse.dropWhile jsWsB = l.reverse := by
    cases hl2 : l.reverse with
    | nil => rfl
    | cons c t =>
      have hc : l.getLast? = some c := by
        rw [← List.head?_reverse, hl2]
        rfl
      simp [List.dropWhile, hl c hc]
  rw [h2, List.reverse_reverse]

theorem jsTrim_strV (v : Json) : jsTrim (strV v) = strV v := by
  obtain ⟨c, t, hct, hok⟩ := strV_head v
  obtain ⟨cl, hcl, hclws⟩ := strV_last v
  apply jsTrim_noop
  · intro c' hc'
    rw [hct] at hc'
    simp at hc'
    rw [← hc']
    exact headOK_not_jsWs hok
  · intro c' hc'
    rw [hcl] at hc'
    rw [Option.some_inj] at hc'
    rw [← hc']
    exact hclws

theorem strV_ne_nil (v : Json) : strV v ≠ [] := by
  obtain ⟨c, t, hct, _⟩ := strV_head v
  rw [hct]
  simp

/- ── parsing a stringified value succeeds ──────────────────────── -/

theorem jsonParse_strV (v : Json) (hwf : wfV v) : jsonParse (strV v) = some v := by
  obtain ⟨c, t, hct, hok⟩ := strV_head v
  unfold jsonParse
  rw [hct, skipWs_cons _ (headOK_not_ws hok), ← hct]
  have hcnt : cntV v ≤ (strV v).length + 1 := by
    have := cntV_le_len v
    omega
  have := rtV ((strV v).length + 1) v [] hwf hcnt (Or.inl rfl)
  rw [List.append_nil] at this
  rw [this]
  rfl

theorem strat1_strV (v : Json) (hwf : wfV v) : strat1 (strV v) = some v := by
  unfold strat1
  rw [jsTrim_strV, jsonParse_strV v hwf]

theorem parseJSON_strV (v : Json) (hwf : wfV v) : parseJSON (strV v) = v := by
  unfold parseJSON
  rw [if_neg (strV_ne_nil v), strat1_strV v hwf]

theorem strat_wf {v : Json} :
    ∀ {f : List Char → Option Json},
      (f = strat1 ∨ f = strat2 ∨ f = strat3 ∨ f = strat4) →
      ∀ {t : List Char}, f t = some v → wfV v := by
  intro f hf t h
  rcases hf with rfl | rfl | rfl | rfl
  · exact jsonParse_wf _ v h
  · exact jsonParse_wf _ v h
  · unfold strat3 at h
    rcases Option.bind_eq_some.mp h with ⟨s, _, hs⟩
    exact jsonParse_wf _ v hs
  · unfold strat4 at h
    rcases Option.bind_eq_some.mp h with ⟨s, _, hs⟩
    exact jsonParse_wf _ v hs

theorem parseJSON_wf_all (t : List Char) : wfV (parseJSON t) := by
  unfold parseJSON
  split
  · simp [wfV]
  · rcases h1 : strat1 t with _ | v
    · rcases h2 : strat2 t with _ | v
      · rcases h3 : strat3 t with _ | v
        · rcases h4 : strat4 t with _ | v
          · simp [wfV]
          · simpa using strat_wf (Or.inr (Or.inr (Or.inr rfl))) h4
        · simpa using strat_wf (Or.inr (Or.inr (Or.inl rfl))) h3
      · simpa using strat_wf (Or.inr (Or.inl rfl)) h2
    · simpa using strat_wf (Or.inl rfl) h1

theorem parseJSON_roundtrip (t : List Char) (v : Json)
    (h : parseJSON t = v) : parseJSON (strV v) = v := by
  have hwf : wfV v := h ▸ parseJSON_wf_all t
  exact parseJSON_strV v hwf

/- ── sanitizer character bounds ────────────────────────────────── -/

/-- Output alphabet of the sanitizer: printable ASCII plus newline,
carriage return and tab. -/
def printableOr (c : Char) : Prop :=
  (32 ≤ c.toNat ∧ c.toNat ≤ 126) ∨ c = '\n' ∨ c = '\r' ∨ c = '\t'

theorem replaceChar_printable (c : Char) : printableOr (replaceChar c) := by
  unfold replaceChar
  split
  · rename_i h
    unfold keepChar at h
    simp at h
    unfold printableOr
    tauto
  · exact Or.inl (by decide)

theorem mem_collapseF {c : Char} :
    ∀ (n : Nat) (l : List Char), c ∈ collapseF n l → c ∈ l ∨ c = ' '
  | 0, [] => fun h => by cases h
  | 0, _ :: _ => fun h => Or.inl h
  | _ + 1, [] => fun h => by cases h
  | n + 1, c0 :: r => fun h => by
    rw [collapseF] at h
    by_cases hws : jsWsB c0 = true
    · rw [if_pos hws] at h
      rcases List.mem_append.mp h with h | h
      · split at h
        · simp at h
          exact Or.inr h
        · exact Or.inl ((List.takeWhile_sublist jsWsB).subset h)
      · rcases mem_collapseF n ((c0 :: r).dropWhile jsWsB) h with h | h
        · exact Or.inl ((List.dropWhile_sublist jsWsB).subset h)
        · exact Or.inr h
    · rw [if_neg hws] at h
      rcases List.mem_cons.mp h with h | h
      · exact Or.inl (by simp [h])
      · rcases mem_collapseF n r h with h | h
        · exact Or.inl (List.mem_cons_of_mem c0 h)
        · exact Or.inr h

theorem mem_collapseWs {c : Char} (l : List Char) (h : c ∈ collapseWs l) :
    c ∈ l ∨ c = ' ' := by
  unfold collapseWs at h
  exact mem_collapseF l.length l h

theorem mem_jsTrim {c : Char} (l : List Char) (h : c ∈ jsTrim l) : c ∈ l := by
  unfold jsTrim at h
  rw [List.mem_reverse] at h
  have h2 := (List.dropWhile_sublist jsWsB).subset h
  rw [List.mem_reverse] at h2
  exact (List.dropWhile_sublist jsWsB).subset h2

theorem sanitize_char (t : List Char) (c : Char) (h : c ∈ sanitize t) :
    printableOr c := by
  unfold sanitize at h
  have h1 := List.take_subset 3000 _ h
  have h2 := mem_jsTrim _ h1
  rcases mem_collapseWs _ h2 with h3 | h3
  · obtain ⟨d, _, rfl⟩ := List.mem_map.mp h3
    exact replaceChar_printable d
  · subst h3
    exact Or.inl (by decide)

/- ── session helper lemmas ─────────────────────────────────────── -/

theorem lookupA_updateA {α : Type} :
    ∀ (l : List (Nat × α)) (k : Nat) (v : α),
      lookupA (updateA l k v) k = some v
  | [], k, v => by
    unfold updateA lookupA
    rw [if_pos rfl]
  | (k', v') :: t, k, v => by
    unfold updateA
    split
    · rename_i h
      unfold lookupA
      rw [if_pos h]
    · rename_i h
      unfold lookupA
      rw [if_neg h]
      exact lookupA_updateA t k v

theorem clickLetter_blocked (s : SState) (j : Json) (k : Nat)
    (hk : jobKey j = some k)
    (hblock : s.genId = some (Kind.letter, k) ∨ s.genId = some (Kind.tips, k)) :
    next s (Ev.clickLetter j) = s := by
  unfold next
  dsimp only
  by_cases hg : s.step = 3 ∧ j ∈ s.jobs
  · rw [if_pos hg, hk]
    dsimp only
    rw [if_pos hblock]
  · rw [if_neg hg]

theorem clickTips_blocked (s : SState) (j : Json) (k : Nat)
    (hk : jobKey j = some k)
    (hblock : s.genId = some (Kind.letter, k) ∨ s.genId = some (Kind.tips, k)) :
    next s (Ev.clickTips j) = s := by
  unfold next
  dsimp only
  by_cases hg : s.step = 3 ∧ j ∈ s.jobs
  · rw [if_pos hg, hk]
    dsimp only
    rw [if_pos hblock]
  · rw [if_neg hg]

theorem clickLetter_cached (s : SState) (j : Json) (k : Nat) (v : List Char)
    (hstep : s.step = 3) (hmem : j ∈ s.jobs) (hk : jobKey j = some k)
    (hblock : ¬ (s.genId = some (Kind.letter, k) ∨ s.genId = some (Kind.tips, k)))
    (hv : lookupA s.letters k = some v) (hne : v ≠ []) :
    next s (Ev.clickLetter j) = s := by
  unfold next
  dsimp only
  rw [if_pos ⟨hstep, hmem⟩, hk]
  dsimp only
  rw [if_neg hblock, hv]
  dsimp only
  rw [if_neg hne]

theorem clickTips_cached (s : SState) (j : Json) (k : Nat) (v : Json)
    (hstep : s.step = 3) (hmem : j ∈ s.jobs) (hk : jobKey j = some k)
    (hblock : ¬ (s.genId = some (Kind.letter, k) ∨ s.genId = some (Kind.tips, k)))
    (hv : lookupA s.tips k = some v) (htr : jsTruthy v = true) :
    next s (Ev.clickTips j) = s := by
  unfold next
  dsimp only
  rw [if_pos ⟨hstep, hmem⟩, hk]
  dsimp only
  rw [if_neg hblock, hv]
  dsimp only
  rw [if_pos htr]

theorem clickLetter_dispatch (s : SState) (j : Json) (k : Nat)
    (hstep : s.step = 3) (hmem : j ∈ s.jobs) (hk : jobKey j = some k)
    (hblock : ¬ (s.genId = some (Kind.letter, k) ∨ s.genId = some (Kind.tips, k)))
    (hv : lookupA s.letters k = none) :
    next s (Ev.clickLetter j) = dispatchGen s Kind.letter k := by
  unfold next
  dsimp only
  rw [if_pos ⟨hstep, hmem⟩, hk]
  dsimp only
  rw [if_neg hblock, hv]

theorem resolveLetter_write (s : SState) (p : Pending) (txt : List Char)
    (hp : p ∈ s.inflight) (hk : p.kind = Kind.letter) :
    next s (Ev.resolveLetter p txt) =
      { s with inflight := s.inflight.erase p,
               letters := updateA s.letters p.key txt,
               genId := none } := by
  unfold next
  dsimp only
  rw [if_pos ⟨hp, hk⟩]
/- ── concrete fixtures for the claims ──────────────────────────── -/

/-- A listing with id 1, as produced by the reindexing of findJobs. -/
def jobOne : Json := Json.obj (JObj.cons "id".toList (Json.num 1 0) JObj.nil)

/-- A listing with id 2. -/
def jobTwo : Json := Json.obj (JObj.cons "id".toList (Json.num 2 0) JObj.nil)

/-- The text of a one-element listing array. -/
def rawJobs : List Char := "[true]".toList

/-- Step 3 with listing 1 on screen and an empty cover letter cached
for it. -/
def sC1 : SState :=
  { initState with step := 3, jobs := [jobOne], letters := [(1, [])] }

/-- Step 3 with listing 1 on screen and a one-character cover letter
cached for it. -/
def sC1w : SState :=
  { initState with step := 3, jobs := [jobOne], letters := [(1, ['h'])] }

/-- Step 3 with two listings on screen and empty caches. -/
def sC2 : SState := { initState with step := 3, jobs := [jobOne, jobTwo] }

/-- Step 3 with listing 1 on screen while its letter generation is
flagged in flight. -/
def sC2w : SState :=
  { initState with step := 3, jobs := [jobOne],
                   genId := some (Kind.letter, 1) }

/- ── C1: cached artifacts are returned without a service call ───── -/

/-- Claim C1, counterexample: an empty cover letter IS stored in the
letters cache for key 1, yet clicking that listing again dispatches a
new generation (the service-call counter increases), because the
handler tests the cache entry for truthiness and the empty string is
falsy. -/
theorem C1_counterexample :
    lookupA sC1.letters 1 = some [] ∧
    (next sC1 (Ev.clickLetter jobOne)).serviceCalls = sC1.serviceCalls + 1 := by
  decide

/-- Claim C1 (amended): if the stored cover letter is non-empty (resp.
the stored tips value is truthy), a repeated request is a strict no-op:
the state is unchanged and no service call happens; and two sequential
letter requests for an uncached key with a non-empty generation result
invoke the service exactly once and leave the artifact cached. -/
theorem C1_prop :
    (∀ (s : SState) (j : Json) (k : Nat) (v : List Char),
      s.step = 3 → j ∈ s.jobs → jobKey j = some k → s.genId = none →
      lookupA s.letters k = some v → v ≠ [] →
      next s (Ev.clickLetter j) = s) ∧
    (∀ (s : SState) (j : Json) (k : Nat) (v : Json),
      s.step = 3 → j ∈ s.jobs → jobKey j = some k → s.genId = none →
      lookupA s.tips k = some v → jsTruthy v = true →
      next s (Ev.clickTips j) = s) ∧
    (∀ (s : SState) (j : Json) (k : Nat) (txt : List Char),
      s.step = 3 → j ∈ s.jobs → jobKey j = some k → s.genId = none →
      lookupA s.letters k = none → txt ≠ [] →
      (runEvs s [Ev.clickLetter j,
          Ev.resolveLetter ⟨Kind.letter, k, s.epoch⟩ txt,
          Ev.clickLetter j]).serviceCalls = s.serviceCalls + 1 ∧
      lookupA (runEvs s [Ev.clickLetter j,
          Ev.resolveLetter ⟨Kind.letter, k, s.epoch⟩ txt,
          Ev.clickLetter j]).letters k = some txt) := by
  refine ⟨?_, ?_, ?_⟩
  · intro s j k v hstep hmem hk hgen hv hne
    exact clickLetter_cached s j k v hstep hmem hk (by simp [hgen]) hv hne
  · intro s j k v hstep hmem hk hgen hv htr
    exact clickTips_cached s j k v hstep hmem hk (by simp [hgen]) hv htr
  · intro s j k txt hstep hmem hk hgen hlet hne
    have hblock : ¬ (s.genId = some (Kind.letter, k) ∨
        s.genId = some (Kind.tips, k)) := by simp [hgen]
    have h1 := clickLetter_dispatch s j k hstep hmem hk hblock hlet
    have h2 := resolveLetter_write (dispatchGen s Kind.letter k)
      ⟨Kind.letter, k, s.epoch⟩ txt (by simp [dispatchGen]) rfl
    have h3 : next (next (next s (Ev.clickLetter j))
        (Ev.resolveLetter ⟨Kind.letter, k, s.epoch⟩ txt)) (Ev.clickLetter j)
        = next (next s (Ev.clickLetter j))
            (Ev.resolveLetter ⟨Kind.letter, k, s.epoch⟩ txt) := by
      apply clickLetter_cached _ j k txt
      · rw [h1, h2]
        dsimp only [dispatchGen]
        exact hstep
      · rw [h1, h2]
        dsimp only [dispatchGen]
        exact hmem
      · exact hk
      · rw [h1, h2]
        simp
      · rw [h1, h2]
        dsimp only [dispatchGen]
        exact lookupA_updateA _ _ _
      · exact hne
    constructor
    · rw [show runEvs s [Ev.clickLetter j,
          Ev.resolveLetter ⟨Kind.letter, k, s.epoch⟩ txt, Ev.clickLetter j]
          = next (next (next s (Ev.clickLetter j))
              (Ev.resolveLetter ⟨Kind.letter, k, s.epoch⟩ txt))
              (Ev.clickLetter j) from rfl]
      rw [h3, h1, h2]
      dsimp only [dispatchGen]
    · rw [show runEvs s [Ev.clickLetter j,
          Ev.resolveLetter ⟨Kind.letter, k, s.epoch⟩ txt, Ev.clickLetter j]
          = next (next (next s (Ev.clickLetter j))
              (Ev.resolveLetter ⟨Kind.letter, k, s.epoch⟩ txt))
              (Ev.clickLetter j) from rfl]
      rw [h3, h1, h2]
      dsimp only [dispatchGen]
      exact lookupA_updateA _ _ _

/-- Claim C1, witness: a concrete cached non-empty letter is returned
with the state unchanged. -/
theorem C1_witness : next sC1w (Ev.clickLetter jobOne) = sC1w :=
  C1_prop.1 sC1w jobOne 1 ['h'] rfl (by decide) (by decide) rfl (by decide)
    (by decide)

/- ── C2: at most one generation in flight per key ──────────────── -/

/-- Claim C2, counterexample: with two listings, clicking letter 1,
then letter 2, then letter 1 again leaves two unresolved generation
requests for the key (letter, 1) while nothing is cached for it yet,
because the single genId flag was overwritten by the second listing's
request. -/
theorem C2_counterexample :
    lookupA (runEvs sC2 [Ev.clickLetter jobOne, Ev.clickLetter jobTwo,
        Ev.clickLetter jobOne]).letters 1 = none ∧
    ((runEvs sC2 [Ev.clickLetter jobOne, Ev.clickLetter jobTwo,
        Ev.clickLetter jobOne]).inflight.countP
      (fun p => decide (p.kind = Kind.letter) && (p.key == 1))) = 2 := by
  decide

/-- Claim C2 (amended): only while the genId flag still holds the very
key being clicked is a second request for it rejected: in that case
both the letter and the tips click leave the state unchanged. -/
theorem C2_prop :
    ∀ (s : SState) (j : Json) (k : Nat), jobKey j = some k →
      (s.genId = some (Kind.letter, k) ∨ s.genId = some (Kind.tips, k)) →
      next s (Ev.clickLetter j) = s ∧ next s (Ev.clickTips j) = s :=
  fun s j k hk hb =>
    ⟨clickLetter_blocked s j k hk hb, clickTips_blocked s j k hk hb⟩

/-- Claim C2, witness: with the flag set for (letter, 1), clicking
listing 1 again changes nothing. -/
theorem C2_witness :
    next sC2w (Ev.clickLetter jobOne) = sC2w ∧
    next sC2w (Ev.clickTips jobOne) = sC2w :=
  C2_prop sC2w jobOne 1 (by decide) (Or.inl rfl)

/- ── C3: the four-strategy parser cascade ──────────────────────── -/

/-- Claim C3, counterexample: on a text with two array literals the
bracket-extraction strategy of the source takes the GREEDY slice from
the first opening bracket to the LAST closing bracket, which fails to
parse, so parseJSON returns null; a parser that extracted the first
well-formed array literal substring, as the claim describes, would
return the value of the leading literal. -/
theorem C3_counterexample :
    parseJSON ("[true] [false]".toList) = Json.null ∧
    parseJSONClaim ("[true] [false]".toList)
      = Json.arr (JArr.cons (Json.bool true) JArr.nil) ∧
    parseJSON ("[true] [false]".toList)
      ≠ parseJSONClaim ("[true] [false]".toList) := by
  decide

/-- Claim C3 (amended): parseJSON is the first-success cascade of the
four strategies of the source — direct parse of the trimmed text,
fence-stripped parse, greedy bracket slice (first opener before the
last closer, through that closer), greedy brace slice — and null when
all fail, including on empty text. -/
theorem C3_prop :
    ∀ t : List Char,
      parseJSON t = cascadeRun [strat1, strat2, strat3, strat4] t := by
  intro t
  by_cases ht : t = []
  · subst ht
    decide
  · unfold parseJSON cascadeRun
    rw [if_neg ht]
    cases h1 : strat1 t with
    | some v => simp [List.findSome?, h1]
    | none =>
      cases h2 : strat2 t with
      | some v => simp [List.findSome?, h1, h2]
      | none =>
        cases h3 : strat3 t with
        | some v => simp [List.findSome?, h1, h2, h3]
        | none =>
          cases h4 : strat4 t with
          | some v => simp [List.findSome?, h1, h2, h3, h4]
          | none => simp [List.findSome?, h1, h2, h3, h4]

/- ── C4: the parser is idempotent on its own output ────────────── -/

/-
The exact-decimal model idealizes the finite doubles of the engine
(whose stringify-parse round trip is exact, by shortest round-trip
printing).  The idealization is unfaithful at one point: a numeric
literal whose value reaches the IEEE-754 double overflow bound
converts to Infinity under the round-to-nearest rule, and the
stringify of the engine serializes a non-finite number as the text
null.  The following layer refines the model by that rule.
-/

/-- The double overflow bound: an exact value of magnitude at least
2^1024 - 2^970 rounds to Infinity under round-to-nearest-ties-even. -/
def ovBound : Nat := 2 ^ 1024 - 2 ^ 970

/-- Does the exact decimal m * 10^e overflow the double range?  For
e = -k the comparison |m| * 10^e ≥ ovBound is taken times 10^k. -/
def numOverflows (m e : Int) : Bool :=
  if 0 ≤ e then ovBound ≤ m.natAbs * 10 ^ e.toNat
  else ovBound * 10 ^ (-e).toNat ≤ m.natAbs

mutual

/-- Does a value contain a number beyond the double range (a number
the engine holds as an Infinity)? -/
def hasOverflow : Json → Bool
  | .num m e => numOverflows m e
  | .arr a => hasOverflowA a
  | .obj o => hasOverflowO o
  | _ => false

def hasOverflowA : JArr → Bool
  | .nil => false
  | .cons v t => hasOverflow v || hasOverflowA t

def hasOverflowO : JObj → Bool
  | .nil => false
  | .cons _ v t => hasOverflow v || hasOverflowO t

end

mutual

/-- The value as the stringify of the engine serializes it: every
number beyond the double range is an Infinity there, and a non-finite
number serializes as null. -/
def dblNorm : Json → Json
  | .num m e => if numOverflows m e then .null else .num m e
  | .arr a => .arr (dblNormA a)
  | .obj o => .obj (dblNormO o)
  | v => v

def dblNormA : JArr → JArr
  | .nil => .nil
  | .cons v t => .cons (dblNorm v) (dblNormA t)

def dblNormO : JObj → JObj
  | .nil => .nil
  | .cons k v t => .cons k (dblNorm v) (dblNormO t)

end

/-- Claim C4, counterexample: the literal 1e999 parses to a number
beyond the double range, so the engine holds Infinity; its stringify
is the text null, and re-parsing that text yields null, not the parsed
value — the round trip fails on an overflowed number. -/
theorem C4_counterexample :
    parseJSON ("1e999".toList) = Json.num 1 999 ∧
    numOverflows 1 999 = true ∧
    dblNorm (Json.num 1 999) = Json.null ∧
    strV (dblNorm (Json.num 1 999)) = "null".toList ∧
    parseJSON (strV (dblNorm (Json.num 1 999))) = Json.null ∧
    Json.null ≠ Json.num 1 999 := by
  decide

/-- Claim C4 (amended): if parseJSON succeeds on a text with a value v
none of whose numbers overflows the double range, parsing the
serialization of v yields v again; a number that overflows becomes an
Infinity, its serialization is the text null, and re-parsing yields
null instead of the value. -/
theorem C4_prop :
    (∀ (t : List Char) (v : Json), parseJSON t = v → v ≠ Json.null →
      hasOverflow v = false → parseJSON (strV v) = v) ∧
    (∀ m e : Int, numOverflows m e = true →
      parseJSON (strV (dblNorm (Json.num m e))) = Json.null) := by
  constructor
  · intro t v h hv hfin
    exact parseJSON_roundtrip t v h
  · intro m e h
    rw [dblNorm, if_pos h]
    decide

/-- Claim C4, witness: re-parsing the serialization of the value parsed
from a concrete overflow-free array text gives the value back, and a
concrete overflowed number serializes to a text that re-parses to
null. -/
theorem C4_witness :
    parseJSON (strV (Json.arr (JArr.cons (Json.bool true) JArr.nil)))
      = Json.arr (JArr.cons (Json.bool true) JArr.nil) ∧
    parseJSON (strV (dblNorm (Json.num 1 999))) = Json.null :=
  ⟨C4_prop.1 ("[true]".toList) _ (by decide) (by decide) (by decide),
   C4_prop.2 1 999 (by decide)⟩

/- ── C5: the too-short guard ───────────────────────────────────── -/

/-- Thirty control characters: accepted by readFile, yet sanitized to
nothing. -/
def tC5 : List Char := List.replicate 30 (Char.ofNat 1)

/-- Step 1 with the control-character resume loaded. -/
def sC5 : SState := { initState with step := 1, resumeText := some tC5 }

/-- Step 1 with an empty resume slot. -/
def sC5w : SState := { initState with step := 1 }

/-- Claim C5, counterexample: the length gate runs in readFile on the
RAW trimmed text, not on the sanitized text: thirty control characters
pass the gate although their sanitized form is empty, and the analyze
step still performs its completion call. -/
theorem C5_counterexample :
    readFileResult tC5 = some tC5 ∧
    (sanitize tC5).length = 0 ∧
    (next sC5 (Ev.analyzeOk ['x'])).serviceCalls = sC5.serviceCalls + 1 := by
  decide

/-- Claim C5 (amended): the ExtractionTooShort rejection happens in
readFile against the raw trimmed text (under 30 characters the file is
rejected and no resume is stored), and analyze always performs its
completion call regardless of the sanitized length. -/
theorem C5_prop :
    (∀ t : List Char, (jsTrim t).length < 30 → readFileResult t = none) ∧
    (∀ (s : SState) (raw : List Char), s.step = 1 →
      (next s (Ev.analyzeOk raw)).serviceCalls = s.serviceCalls + 1) := by
  constructor
  · intro t ht
    unfold readFileResult
    rw [if_pos (Or.inr ht)]
  · intro s raw h
    unfold next
    dsimp only
    rw [if_pos h]

/-- Claim C5, witness: a one-character file is rejected, and a concrete
analyze round trip increments the service-call counter. -/
theorem C5_witness :
    readFileResult ['a'] = none ∧
    (next sC5w (Ev.analyzeOk [])).serviceCalls = sC5w.serviceCalls + 1 :=
  ⟨C5_prop.1 ['a'] (by decide), C5_prop.2 sC5w [] rfl⟩

/- ── C6: sanitizer output bounds ───────────────────────────────── -/

/-- Claim C6: the sanitized text is at most 3000 characters and every
character is printable ASCII or one of newline, carriage return, tab. -/
theorem C6_prop :
    ∀ t : List Char, (sanitize t).length ≤ 3000 ∧
      ∀ c ∈ sanitize t,
        (32 ≤ c.toNat ∧ c.toNat ≤ 126) ∨ c = '\n' ∨ c = '\r' ∨ c = '\t' := by
  intro t
  refine ⟨?_, ?_⟩
  · unfold sanitize
    exact List.length_take_le 3000 _
  · intro c hc
    exact sanitize_char t c hc

/-- Claim C6, witness: the bound and the character property evaluated
on a concrete input and character. -/
theorem C6_witness :
    (sanitize ['a']).length ≤ 3000 ∧
      ((32 ≤ 'a'.toNat ∧ 'a'.toNat ≤ 126) ∨ 'a' = '\n' ∨ 'a' = '\r' ∨
        'a' = '\t') :=
  ⟨(C6_prop ['a']).1, (C6_prop ['a']).2 'a' (by decide)⟩

/- ── C7: parse failure degrades to the default profile ─────────── -/

/-- Field lookup on a profile object. -/
def profileField (j : Json) (k : List Char) : Option Json :=
  match j with
  | .obj o => JObj.find o k
  | _ => none

/-- Claim C7: when the cascade fails on the extraction response, the
stored profile is the default profile built from the sanitized resume
text — name Candidate, empty skills, zero experience, summary a prefix
of the sanitized text — and the workflow still reaches step 2. -/
theorem C7_prop (s : SState) (t raw : List Char)
    (hstep : s.step = 1) (hrt : s.resumeText = some t)
    (hfail : parseJSON raw = Json.null) :
    (next s (Ev.analyzeOk raw)).step = 2 ∧
    (next s (Ev.analyzeOk raw)).profile = some (defaultProfile (sanitize t)) ∧
    profileField (defaultProfile (sanitize t)) ("name".toList)
      = some (Json.str ("Candidate".toList)) ∧
    profileField (defaultProfile (sanitize t)) ("skills".toList)
      = some (Json.arr JArr.nil) ∧
    profileField (defaultProfile (sanitize t)) ("experience_years".toList)
      = some (Json.num 0 0) ∧
    profileField (defaultProfile (sanitize t)) ("summary".toList)
      = some (Json.str ((sanitize t).take 200)) ∧
    (sanitize t).take 200 ++ (sanitize t).drop 200 = sanitize t := by
  have hn : next s (Ev.analyzeOk raw)
      = { s with profile := some (defaultProfile (sanitize t)), step := 2,
                 serviceCalls := s.serviceCalls + 1 } := by
    unfold next
    dsimp only
    rw [if_pos hstep, hrt, hfail]
    dsimp only [Option.getD]
    rw [if_neg (by decide : ¬ jsTruthy Json.null = true)]
  refine ⟨by rw [hn], by rw [hn], rfl, rfl, rfl, rfl,
    List.take_append_drop _ _⟩

/-- Step 1 with a one-character resume stored. -/
def sC7 : SState := { initState with step := 1, resumeText := some ['a'] }

/-- Claim C7, witness: a concrete unparsable response with a concrete
resume text. -/
theorem C7_witness :
    (next sC7 (Ev.analyzeOk ['g'])).step = 2 ∧
    (next sC7 (Ev.analyzeOk ['g'])).profile
      = some (defaultProfile (sanitize ['a'])) ∧
    profileField (defaultProfile (sanitize ['a'])) ("name".toList)
      = some (Json.str ("Candidate".toList)) ∧
    profileField (defaultProfile (sanitize ['a'])) ("skills".toList)
      = some (Json.arr JArr.nil) ∧
    profileField (defaultProfile (sanitize ['a'])) ("experience_years".toList)
      = some (Json.num 0 0) ∧
    profileField (defaultProfile (sanitize ['a'])) ("summary".toList)
      = some (Json.str ((sanitize ['a']).take 200)) ∧
    (sanitize ['a']).take 200 ++ (sanitize ['a']).drop 200 = sanitize ['a'] :=
  C7_prop sC7 ['a'] ['g'] rfl rfl (by decide)

/- ── C8: no stage is skipped going forward ─────────────────────── -/

/-- Claim C8: from Upload (step 0) the only reachable next step is 0 or
1 (never Profile = 2), and any forward transition advances by exactly
one stage. -/
theorem C8_prop :
    ∀ (s : SState) (e : Ev),
      (s.step = 0 → (next s e).step = 0 ∨ (next s e).step = 1) ∧
      (s.step < (next s e).step → (next s e).step = s.step + 1) := by
  intro s e
  cases e <;> unfold next <;> dsimp only [dispatchGen] <;>
    (repeat' split) <;>
    refine ⟨fun h => ?_, fun h => ?_⟩ <;> simp_all <;> omega

/-- Claim C8, witness: pressing Continue in the initial state leaves
the workflow at step 0 or advances it to step 1. -/
theorem C8_witness :
    (next initState Ev.continueBtn).step = 0 ∨
    (next initState Ev.continueBtn).step = 1 :=
  (C8_prop initState Ev.continueBtn).1 rfl

/- ── C9: artifact caches across a new search ───────────────────── -/

/-- Step 2 with artifacts cached for listing 1 from an earlier listing
set. -/
def sC9 : SState :=
  { initState with step := 2, letters := [(1, ['x'])],
                   tips := [(1, Json.bool true)] }

/-- Claim C9, counterexample: a successful findJobs replaces the
listing set and moves to step 3, yet both artifact caches still hold
their pre-search entries — nothing is discarded. -/
theorem C9_counterexample :
    (next sC9 (Ev.findJobsOk rawJobs)).step = 3 ∧
    (next sC9 (Ev.findJobsOk rawJobs)).jobs = [jobOne] ∧
    (next sC9 (Ev.findJobsOk rawJobs)).letters = [(1, ['x'])] ∧
    (next sC9 (Ev.findJobsOk rawJobs)).tips = [(1, Json.bool true)] := by
  decide

/-- Claim C9 (amended): a findJobs response never clears either
artifact cache: both are exactly preserved. -/
theorem C9_prop :
    ∀ (s : SState) (raw : List Char),
      (next s (Ev.findJobsOk raw)).letters = s.letters ∧
      (next s (Ev.findJobsOk raw)).tips = s.tips := by
  intro s raw
  unfold next
  dsimp only
  by_cases h : s.step = 2
  · rw [if_pos h]
    cases parseJSON raw <;> dsimp only <;>
      first
        | exact ⟨rfl, rfl⟩
        | (split <;> exact ⟨rfl, rfl⟩)
  · rw [if_neg h]
    exact ⟨rfl, rfl⟩

/- ── C10: stale in-flight results ──────────────────────────────── -/

/-- Step 3 with listing 1 on screen and nothing cached. -/
def sC10 : SState := { initState with step := 3, jobs := [jobOne] }

/-- Dispatch a letter, go back, search again (bumping the epoch). -/
def evsC10 : List Ev :=
  [Ev.clickLetter jobOne, Ev.backTo 2, Ev.findJobsOk rawJobs]

/-- A pending letter request from the state before a search, with a
fresh epoch current. -/
def sC10w : SState :=
  { initState with epoch := 1, inflight := [⟨Kind.letter, 5, 0⟩] }

/-- Claim C10, counterexample: a letter generation dispatched before a
new search (epoch 0) resolves after the search replaced the listings
(epoch 1), and its text is written into the letters cache of the new
listing set anyway. -/
theorem C10_counterexample :
    (runEvs sC10 evsC10).epoch = 1 ∧
    (⟨Kind.letter, 1, 0⟩ : Pending) ∈ (runEvs sC10 evsC10).inflight ∧
    lookupA (runEvs sC10 (evsC10 ++
        [Ev.resolveLetter ⟨Kind.letter, 1, 0⟩ ['h', 'i']])).letters 1
      = some ['h', 'i'] := by
  decide

/-- Claim C10 (amended): a resolving letter result is written into the
current letters cache unconditionally, even when its dispatch epoch
differs from the current search epoch — stale results are NOT
discarded. -/
theorem C10_prop (s : SState) (p : Pending) (txt : List Char)
    (hp : p ∈ s.inflight) (hk : p.kind = Kind.letter)
    (hstale : p.epoch ≠ s.epoch) :
    lookupA (next s (Ev.resolveLetter p txt)).letters p.key = some txt := by
  rw [resolveLetter_write s p txt hp hk]
  exact lookupA_updateA _ _ _

/-- Claim C10, witness: a concrete stale pending letter lands in the
cache. -/
theorem C10_witness :
    lookupA (next sC10w (Ev.resolveLetter ⟨Kind.letter, 5, 0⟩ ['z'])).letters 5
      = some ['z'] :=
  C10_prop sC10w ⟨Kind.letter, 5, 0⟩ ['z'] (by decide) rfl (by decide)
